import Mathlib

/-!
Verification of the csv_compression repository (src/compress.py, src/decompress.py).

The core of the program is modelled shallowly:

* a table is a `List (List String)` of cell values (rows of cells), exactly the
  row stream that Python's `csv.reader` yields to the core;
* `countColumn` embeds the per-column value counting of `get_conversion_map`
  (compress.py lines 68-79): a Python `dict` preserves insertion order, so the
  counter for one column is an association list in first-seen order;
* `sortDesc` embeds `sorted(column.items(), key=operator.itemgetter(1), reverse=True)`
  (compress.py line 84).  Python's `sorted` with `reverse=True` is the stable
  descending sort (equal-count items keep their relative order); a stable sort
  is uniquely determined by (permutation, sortedness, stability), so the
  insertion sort below is extensionally the same function;
* `get_conversion_map` embeds the list construction of compress.py line 86,
  including the `x[0] is not ''` filter (in CPython the empty string is interned,
  so the filter removes exactly the empty string);
* `encodeCell` / `encodeRowAux` / `encodeTable` embed the substitution loop of
  `compress_csv_and_save` (compress.py lines 106-113); `list.index` raising
  `ValueError` on a missing value is modelled by `Except`;
* `decodeCell` / `decodeRowAux` / `decodeTable` embed the substitution loop of
  `decompress_file_and_save` (decompress.py lines 31-42); `conversion_map[str(index)]`
  raising `KeyError`, `int(...)` raising `ValueError` and `conversion_list[pos]`
  raising `IndexError` are modelled by `Except` (the spec's CorruptData class);
* `pyIntParse` embeds Python's `int(str)` on ASCII input: surrounding whitespace
  is stripped, an optional single sign is accepted, and digits may be separated
  by single underscores.  (Python additionally accepts non-ASCII decimal digits;
  no cell in any claim exercises that.)
* `pyGet` embeds Python sequence indexing `seq[pos]`, including negative
  indices counting from the end and `IndexError` out of bounds.

Machine integers do not occur: Python integers are unbounded, so `Nat`/`Int`
are exact models.
-/

/-- Errors raised by the Python code while encoding or decoding.
`keyError` models `KeyError` from `conversion_map[str(index)]`,
`valueError` models `ValueError` from `int(...)` and from `list.index`,
`indexError` models `IndexError` from `conversion_list[pos]`,
`jsonError` models `json.JSONDecodeError` from `json.loads`. -/
inductive PyErr where
  | keyError : PyErr
  | valueError : PyErr
  | indexError : PyErr
  | jsonError : PyErr
deriving DecidableEq, Repr

/-- A table: the stream of rows the csv reader yields, each row a list of cells. -/
abbrev Table := List (List String)

/-! ### Decimal digits and Python `str`/`int` conversions -/

/-- The decimal digit character for `n < 10` (models `str` digit emission). -/
def digitChar (n : Nat) : Char := Char.ofNat (48 + n)

/-- `c` is an ASCII decimal digit. -/
def isDig (c : Char) : Bool := 48 ≤ c.toNat && c.toNat ≤ 57

/-- Numeric value of an ASCII digit character. -/
def digVal (c : Char) : Nat := c.toNat - 48

/-- Fuel-based decimal rendering; with fuel `> n` it renders `n` fully.
(Fuel keeps the recursion structural so that the kernel can evaluate it.) -/
def natDigitsAux : Nat → Nat → List Char
  | 0, _ => []
  | fuel+1, n => if n < 10 then [digitChar n] else natDigitsAux fuel (n / 10) ++ [digitChar (n % 10)]

/-- The decimal digits of `n`, most significant first: Python's `str(n)` for `n ≥ 0`. -/
def natDigits (n : Nat) : List Char := natDigitsAux (n + 1) n

/-- Python's `str(n)` for a non-negative integer, as a Lean string. -/
def natRepr (n : Nat) : String := String.mk (natDigits n)

/-- Accumulate decimal digits left to right: `digitsToNat ['4','2'] = 42`. -/
def digitsToNat (l : List Char) : Nat := l.foldl (fun acc c => acc * 10 + digVal c) 0

/-- ASCII whitespace stripped by Python's `int(str)` (via `str.strip`). -/
def isWs (c : Char) : Bool :=
  c.toNat = 32 || c.toNat = 9 || c.toNat = 10 || c.toNat = 13 || c.toNat = 11 || c.toNat = 12

/-- Strip leading and trailing whitespace (models `str.strip()` on ASCII input). -/
def stripWs (l : List Char) : List Char :=
  ((l.dropWhile isWs).reverse.dropWhile isWs).reverse

/-- Digit run with optional single underscores between digits, as Python's
`int` accepts after the sign: returns the digits with underscores removed,
or `none` if a non-digit appears or an underscore is leading, trailing or
doubled. The first character is required to be a digit by `parseUDigits`. -/
def digitsCore : List Char → Option (List Char)
  | [] => some []
  | c :: rest =>
    if isDig c then (digitsCore rest).map (fun l => c :: l)
    else if c = '_' then
      match rest with
      | [] => none
      | d :: rest2 => if isDig d then (digitsCore rest2).map (fun l => d :: l) else none
    else none

/-- An unsigned digit run for Python's `int`: nonempty and starting with a digit. -/
def parseUDigits : List Char → Option (List Char)
  | [] => none
  | c :: rest => if isDig c then digitsCore (c :: rest) else none

/-- Python's `int(s)` on the character list `s` (ASCII model): strip whitespace,
accept one optional sign, then digits with optional single underscores.
`none` models the `ValueError` that `int` raises on malformed input. -/
def pyIntParse (l : List Char) : Option Int :=
  match stripWs l with
  | [] => none
  | c :: rest =>
    if c = '+' then (parseUDigits rest).map (fun ds => (digitsToNat ds : Int))
    else if c = '-' then (parseUDigits rest).map (fun ds => -(digitsToNat ds : Int))
    else (parseUDigits (c :: rest)).map (fun ds => (digitsToNat ds : Int))

/-- Python sequence indexing `seq[i]`: non-negative indices from the front,
negative indices from the end, `none` models `IndexError`. -/
def pyGet (seq : List String) (i : Int) : Option String :=
  if 0 ≤ i then seq[i.toNat]?
  else if (-i).toNat ≤ seq.length then seq[seq.length - (-i).toNat]? else none

/-! ### The map builder (`get_conversion_map`, compress.py lines 53-87) -/

/-- One counting step of the inner dictionary `columns_counter[index]`:
increment the counter of `v`, or append `(v, 1)` at the end (a Python dict
adds new keys at the end, preserving insertion = first-seen order). -/
def bump : List (String × Nat) → String → List (String × Nat)
  | [], v => [(v, 1)]
  | (w, n) :: rest, v => if w = v then (w, n + 1) :: rest else (w, n) :: bump rest v

/-- Scan the rows, counting the values of column `i` into `acc`
(compress.py lines 70-79, projected to one column: the per-column inner
dictionaries are updated independently of each other).  A row contributes to
column `i` exactly when it has a cell at position `i`, and cells of length
`≤ 2` are skipped before the counter is touched. -/
def countColAux (i : Nat) : List (String × Nat) → Table → List (String × Nat)
  | acc, [] => acc
  | acc, row :: t =>
    countColAux i
      (match row[i]? with
       | some v => if v.length ≤ 2 then acc else bump acc v
       | none => acc) t

/-- The counter dictionary for column `i` after the full scan, in first-seen order. -/
def countColumn (t : Table) (i : Nat) : List (String × Nat) := countColAux i [] t

/-- Stable descending insertion: place `x` before the first entry whose count
is `≤` its own, so earlier-seen entries with equal counts stay in front. -/
def insertDesc (x : String × Nat) : List (String × Nat) → List (String × Nat)
  | [] => [x]
  | y :: ys => if y.2 ≤ x.2 then x :: y :: ys else y :: insertDesc x ys

/-- Stable sort by count descending: extensionally Python's
`sorted(items, key=operator.itemgetter(1), reverse=True)` (compress.py line 84),
since a stable descending sort is uniquely determined. -/
def sortDesc : List (String × Nat) → List (String × Nat)
  | [] => []
  | x :: xs => insertDesc x (sortDesc xs)

/-- The ordered value list of column `i` of the conversion map
(compress.py line 86): sorted phrases with the counters dropped and the empty
string filtered out. -/
def get_conversion_map (t : Table) (i : Nat) : List String :=
  ((sortDesc (countColumn t i)).map Prod.fst).filter (fun v => v != "")

/-- The conversion map as the decoder sees it after `json.dump`/`json.loads`:
the dictionary has a key for column `i` exactly when the counter for column
`i` is nonempty (the `continue` on short cells runs before
`columns_counter[index]` is first touched); a missing key is a `KeyError`. -/
def conversionMapLookup (t : Table) (i : Nat) : Option (List String) :=
  match countColumn t i with
  | [] => none
  | _ => some (get_conversion_map t i)

/-! ### The encoder (compress.py lines 106-113) -/

/-- `list.index(v)`: position of the first occurrence, `none` models `ValueError`. -/
def listIndex : List String → String → Option Nat
  | [], _ => none
  | v :: rest, c => if v = c then some 0 else (listIndex rest c).map (fun n => n + 1)

/-- Encode one cell at column `i` (compress.py lines 107-112): cells of length
`≤ 2` are skipped (left unchanged); otherwise the cell is replaced by
`'&' + str(position)`.  The map argument is the `defaultdict(list)` returned by
`get_conversion_map`, hence a total function with default `[]`. -/
def encodeCell (cmap : Nat → List String) (i : Nat) (c : String) : Except PyErr String :=
  if c.length ≤ 2 then .ok c
  else
    match listIndex (cmap i) c with
    | none => .error .valueError
    | some pos => .ok (String.mk ('&' :: natDigits pos))

/-- Encode the cells of a row left to right, with `i` the column index of the
first cell (the `enumerate(row)` loop). -/
def encodeRowAux (cmap : Nat → List String) : Nat → List String → Except PyErr (List String)
  | _, [] => .ok []
  | i, c :: cs =>
    match encodeCell cmap i c with
    | .error e => .error e
    | .ok c2 =>
      match encodeRowAux cmap (i + 1) cs with
      | .error e => .error e
      | .ok cs2 => .ok (c2 :: cs2)

/-- Encode one row. -/
def encodeRow (cmap : Nat → List String) (row : List String) : Except PyErr (List String) :=
  encodeRowAux cmap 0 row

/-- Encode a table row by row; the first raised error aborts the run. -/
def encodeTable (cmap : Nat → List String) : Table → Except PyErr Table
  | [] => .ok []
  | row :: t =>
    match encodeRow cmap row with
    | .error e => .error e
    | .ok row2 =>
      match encodeTable cmap t with
      | .error e => .error e
      | .ok t2 => .ok (row2 :: t2)

/-! ### The decoder (decompress.py lines 31-42) -/

/-- The decoder's marker test `str(column_value).startswith('&')`. -/
def headIsAmp (c : String) : Bool :=
  match c.data with
  | ch :: _ => ch = '&'
  | [] => false

/-- Decode one cell at column `i` (decompress.py lines 33-41), in the order the
Python statements run: marker test, `conversion_map[str(index)]` (KeyError),
`int(column_value[1:])` (ValueError), `conversion_list[pos]` (IndexError). -/
def decodeCell (cmap : Nat → Option (List String)) (i : Nat) (c : String) : Except PyErr String :=
  match c.data with
  | [] => .ok c
  | ch :: rest =>
    if ch = '&' then
      match cmap i with
      | none => .error .keyError
      | some seq =>
        match pyIntParse rest with
        | none => .error .valueError
        | some pos =>
          match pyGet seq pos with
          | none => .error .indexError
          | some v => .ok v
    else .ok c

/-- Decode the cells of a row left to right, with `i` the column index of the
first cell. -/
def decodeRowAux (cmap : Nat → Option (List String)) : Nat → List String → Except PyErr (List String)
  | _, [] => .ok []
  | i, c :: cs =>
    match decodeCell cmap i c with
    | .error e => .error e
    | .ok c2 =>
      match decodeRowAux cmap (i + 1) cs with
      | .error e => .error e
      | .ok cs2 => .ok (c2 :: cs2)

/-- Decode one row. -/
def decodeRow (cmap : Nat → Option (List String)) (row : List String) : Except PyErr (List String) :=
  decodeRowAux cmap 0 row

/-- Decode a table row by row; the first raised error aborts the run. -/
def decodeTable (cmap : Nat → Option (List String)) : Table → Except PyErr Table
  | [] => .ok []
  | row :: t =>
    match decodeRow cmap row with
    | .error e => .error e
    | .ok row2 =>
      match decodeTable cmap t with
      | .error e => .error e
      | .ok t2 => .ok (row2 :: t2)

/-- The composed core pipeline of the claim `Decode(Encode(T, Build(T)), Build(T))`:
build the map from `t`, encode `t` against it, decode the result against it. -/
def c1pipeline (t : Table) : Except PyErr Table :=
  match encodeTable (get_conversion_map t) t with
  | .error e => .error e
  | .ok enc => decodeTable (conversionMapLookup t) enc

-- Sanity checks of the embedding on the spec's concrete examples.
example :
    get_conversion_map
      [["apple"], ["banana"], ["apple"], ["cherry"], ["apple"], ["banana"]] 0 =
      ["apple", "banana", "cherry"] := by decide

example :
    get_conversion_map [[""], [""], ["hello world"], ["hello world"], ["hi"]] 0 =
      ["hello world"] := by decide

example :
    encodeCell (fun _ => ["apple", "banana", "cherry"]) 0 "banana" = .ok "&1" := rfl

example :
    decodeCell (fun _ => some ["apple", "banana", "cherry"]) 0 "&1" = .ok "banana" := rfl

example : decodeCell (fun _ => some ["apple"]) 0 "&-1" = .ok "apple" := rfl

example : decodeCell (fun _ => some ["apple"]) 0 "&99" = .error .indexError := rfl

example : c1pipeline [["&0"]] = .error .keyError := rfl

example :
    c1pipeline [["apple", "xy"], ["apple", "zz"]] = .ok [["apple", "xy"], ["apple", "zz"]] := rfl

/-! ### Lemmas: decimal digits and `pyIntParse` -/

theorem natDigitsAux_fuel (n : Nat) : ∀ f1 f2, n < f1 → n < f2 →
    natDigitsAux f1 n = natDigitsAux f2 n := by
  induction n using Nat.strong_induction_on with
  | _ n ih =>
    intro f1 f2 h1 h2
    match f1, f2 with
    | g1 + 1, g2 + 1 =>
      simp only [natDigitsAux]
      by_cases h10 : n < 10
      · simp [h10]
      · have hlt : n / 10 < n := Nat.div_lt_self (by omega) (by omega)
        simp only [h10, if_false]
        rw [ih (n / 10) hlt g1 g2 (by omega) (by omega)]

theorem natDigits_unfold (n : Nat) :
    natDigits n = if n < 10 then [digitChar n] else natDigits (n / 10) ++ [digitChar (n % 10)] := by
  by_cases h10 : n < 10
  · simp [natDigits, natDigitsAux, h10]
  · have hlt : n / 10 < n := Nat.div_lt_self (by omega) (by omega)
    have h1 : natDigits n = natDigitsAux n (n / 10) ++ [digitChar (n % 10)] := by
      show natDigitsAux (n + 1) n = _
      rw [natDigitsAux.eq_def]
      simp [h10]
    rw [h1, natDigitsAux_fuel (n / 10) n (n / 10 + 1) hlt (by omega), if_neg h10]
    rfl

theorem digitChar_toNat (d : Nat) (h : d < 10) : (digitChar d).toNat = 48 + d := by
  interval_cases d <;> decide

theorem isDig_digitChar (d : Nat) (h : d < 10) : isDig (digitChar d) = true := by
  simp only [isDig, Bool.and_eq_true, decide_eq_true_eq, digitChar_toNat d h]
  omega

theorem digVal_digitChar (d : Nat) (h : d < 10) : digVal (digitChar d) = d := by
  simp only [digVal, digitChar_toNat d h]
  omega

theorem isDig_not_ws {c : Char} (h : isDig c = true) : isWs c = false := by
  simp only [isDig, Bool.and_eq_true, decide_eq_true_eq] at h
  simp only [isWs, Bool.or_eq_false_iff, decide_eq_false_iff_not]
  omega

theorem isDig_ne_plus {c : Char} (h : isDig c = true) : c ≠ '+' := by
  intro hc
  subst hc
  simp [isDig] at h

theorem isDig_ne_minus {c : Char} (h : isDig c = true) : c ≠ '-' := by
  intro hc
  subst hc
  simp [isDig] at h

theorem natDigits_all_digits (n : Nat) : ∀ c ∈ natDigits n, isDig c = true := by
  induction n using Nat.strong_induction_on with
  | _ n ih =>
    intro c hc
    rw [natDigits_unfold] at hc
    by_cases h10 : n < 10
    · simp [h10] at hc
      subst hc
      exact isDig_digitChar n h10
    · simp only [h10, if_false, List.mem_append, List.mem_singleton] at hc
      rcases hc with hc | hc
      · exact ih (n / 10) (Nat.div_lt_self (by omega) (by omega)) c hc
      · subst hc
        exact isDig_digitChar (n % 10) (Nat.mod_lt n (by omega))

theorem natDigits_ne_nil (n : Nat) : natDigits n ≠ [] := by
  rw [natDigits_unfold]
  by_cases h10 : n < 10 <;> simp [h10]

theorem digitsToNat_append (l : List Char) (c : Char) :
    digitsToNat (l ++ [c]) = 10 * digitsToNat l + digVal c := by
  simp [digitsToNat, List.foldl_append]
  omega

theorem digitsToNat_natDigits (n : Nat) : digitsToNat (natDigits n) = n := by
  induction n using Nat.strong_induction_on with
  | _ n ih =>
    rw [natDigits_unfold]
    by_cases h10 : n < 10
    · simp only [h10, if_true, digitsToNat, List.foldl_cons, List.foldl_nil]
      rw [digVal_digitChar n h10]
      omega
    · simp only [h10, if_false]
      rw [digitsToNat_append, ih (n / 10) (Nat.div_lt_self (by omega) (by omega)),
        digVal_digitChar (n % 10) (Nat.mod_lt n (by omega))]
      omega

theorem digitsCore_of_all_digits (l : List Char) (h : ∀ c ∈ l, isDig c = true) :
    digitsCore l = some l := by
  induction l with
  | nil => rfl
  | cons c rest ih =>
    have hc : isDig c = true := h c (by simp)
    rw [digitsCore.eq_def]
    simp only [hc, if_true]
    rw [ih (fun d hd => h d (by simp [hd]))]
    rfl

theorem parseUDigits_natDigits (n : Nat) : parseUDigits (natDigits n) = some (natDigits n) := by
  rcases hd : natDigits n with _ | ⟨c, rest⟩
  · exact absurd hd (natDigits_ne_nil n)
  · have hc : isDig c = true := natDigits_all_digits n c (by rw [hd]; simp)
    simp only [parseUDigits, hc, if_true]
    rw [← hd, digitsCore_of_all_digits _ (natDigits_all_digits n)]

theorem dropWhile_eq_self_of (p : Char → Bool) (l : List Char) (h : ∀ c ∈ l, p c = false) :
    l.dropWhile p = l := by
  cases l with
  | nil => rfl
  | cons c rest => simp [List.dropWhile_cons, h c (by simp)]

theorem stripWs_of_no_ws (l : List Char) (h : ∀ c ∈ l, isWs c = false) : stripWs l = l := by
  unfold stripWs
  rw [dropWhile_eq_self_of _ _ h,
    dropWhile_eq_self_of _ _ (fun c hc => h c (List.mem_reverse.mp hc)), List.reverse_reverse]

theorem pyIntParse_natDigits (n : Nat) : pyIntParse (natDigits n) = some (n : Int) := by
  rcases hd : natDigits n with _ | ⟨c, rest⟩
  · exact absurd hd (natDigits_ne_nil n)
  · have hall : ∀ x ∈ c :: rest, isDig x = true := by
      rw [← hd]; exact natDigits_all_digits n
    have hs : stripWs (c :: rest) = c :: rest :=
      stripWs_of_no_ws _ (fun x hx => isDig_not_ws (hall x hx))
    have hc : isDig c = true := hall c (by simp)
    have hpu : parseUDigits (c :: rest) = some (c :: rest) := by
      rw [← hd]; exact parseUDigits_natDigits n
    have hdn : digitsToNat (c :: rest) = n := by
      rw [← hd]; exact digitsToNat_natDigits n
    simp [pyIntParse, hs, isDig_ne_plus hc, isDig_ne_minus hc, hpu, hdn]

theorem pyIntParse_neg_natDigits (k : Nat) :
    pyIntParse ('-' :: natDigits k) = some (-(k : Int)) := by
  have hs : stripWs ('-' :: natDigits k) = '-' :: natDigits k := by
    refine stripWs_of_no_ws _ ?_
    intro c hc
    rcases List.mem_cons.mp hc with hc | hc
    · subst hc; decide
    · exact isDig_not_ws (natDigits_all_digits k c hc)
  simp [pyIntParse, hs, parseUDigits_natDigits k, digitsToNat_natDigits k]

theorem pyGet_ofNat (seq : List String) (p : Nat) : pyGet seq (Int.ofNat p) = seq[p]? := by
  simp [pyGet]

theorem pyGet_neg (seq : List String) (k : Nat) (h1 : 1 ≤ k) (h2 : k ≤ seq.length) :
    pyGet seq (-(k : Int)) = seq[seq.length - k]? := by
  have hneg : ¬ (0 ≤ -(k : Int)) := by omega
  simp only [pyGet, hneg, if_false, neg_neg, Int.toNat_ofNat]
  simp [h2]

theorem listIndex_mem (l : List String) (c : String) (h : c ∈ l) :
    ∃ p, listIndex l c = some p ∧ l[p]? = some c := by
  induction l with
  | nil => simp at h
  | cons v rest ih =>
    by_cases hv : v = c
    · exact ⟨0, by simp [listIndex, hv]⟩
    · rcases List.mem_cons.mp h with hc | hc
      · exact absurd hc.symm hv
      · rcases ih hc with ⟨p, hp1, hp2⟩
        exact ⟨p + 1, by simp [listIndex, hv, hp1], by simpa using hp2⟩

/-! ### Lemmas: the map builder -/

/-- The keys (distinct values) of a column counter, in first-seen order. -/
def keysOf (l : List (String × Nat)) : List String := l.map Prod.fst

/-- The counter a Python dict lookup would return (0 for a missing key). -/
def lookupCount : List (String × Nat) → String → Nat
  | [], _ => 0
  | (w, n) :: rest, v => if w = v then n else lookupCount rest v

/-- `c` occurs in column `i` of the table with literal length `> 2`
(the cells the map builder counts). -/
def occursLong (t : Table) (i : Nat) (c : String) : Prop :=
  ∃ row, row ∈ t ∧ row[i]? = some c ∧ 2 < c.length

theorem occursLong_nil (i : Nat) (c : String) : ¬ occursLong [] i c := by
  rintro ⟨row, h, -⟩
  simp at h

theorem occursLong_cons (row : List String) (t : Table) (i : Nat) (c : String) :
    occursLong (row :: t) i c ↔
      (row[i]? = some c ∧ 2 < c.length) ∨ occursLong t i c := by
  unfold occursLong
  simp only [List.mem_cons, or_and_right, exists_or, exists_eq_left]

theorem mem_keysOf_bump (l : List (String × Nat)) (v c : String) :
    c ∈ keysOf (bump l v) ↔ c ∈ keysOf l ∨ c = v := by
  induction l with
  | nil => simp [bump, keysOf, eq_comm]
  | cons p rest ih =>
    obtain ⟨w, n⟩ := p
    rcases eq_or_ne w v with hw | hw
    · subst hw
      have h1 : bump ((w, n) :: rest) w = (w, n + 1) :: rest := by simp [bump]
      rw [h1]
      simp only [keysOf, List.map_cons, List.mem_cons]
      tauto
    · have h1 : bump ((w, n) :: rest) v = (w, n) :: bump rest v := by simp [bump, hw]
      rw [h1]
      simp only [keysOf, List.map_cons, List.mem_cons] at ih ⊢
      rw [ih]
      tauto

theorem nodup_keysOf_bump (l : List (String × Nat)) (v : String)
    (h : (keysOf l).Nodup) : (keysOf (bump l v)).Nodup := by
  induction l with
  | nil => simp [bump, keysOf]
  | cons p rest ih =>
    obtain ⟨w, n⟩ := p
    simp only [keysOf, List.map_cons, List.nodup_cons] at h
    rcases eq_or_ne w v with hw | hw
    · subst hw
      have h1 : bump ((w, n) :: rest) w = (w, n + 1) :: rest := by simp [bump]
      rw [h1]
      simp only [keysOf, List.map_cons, List.nodup_cons]
      exact h
    · have h1 : bump ((w, n) :: rest) v = (w, n) :: bump rest v := by simp [bump, hw]
      rw [h1]
      simp only [keysOf, List.map_cons, List.nodup_cons]
      refine ⟨?_, ih h.2⟩
      have h2 : w ∈ keysOf (bump rest v) ↔ w ∈ keysOf rest ∨ w = v := mem_keysOf_bump rest v w
      simp only [keysOf] at h2
      rw [h2]
      rintro (hm | hm)
      · exact h.1 hm
      · exact hw hm

theorem lookupCount_bump (l : List (String × Nat)) (v c : String) :
    lookupCount (bump l v) c = lookupCount l c + (if c = v then 1 else 0) := by
  induction l with
  | nil =>
    rcases eq_or_ne c v with h | h
    · subst h; simp [bump, lookupCount]
    · have h2 : v ≠ c := fun hh => h hh.symm
      simp [bump, lookupCount, h, h2]
  | cons p rest ih =>
    obtain ⟨w, n⟩ := p
    rcases eq_or_ne w v with hw | hw
    · subst hw
      rcases eq_or_ne w c with hc | hc
      · subst hc; simp [bump, lookupCount]
      · have h2 : ¬ c = w := fun hh => hc hh.symm
        simp [bump, lookupCount, hc, h2]
    · rcases eq_or_ne w c with hc | hc
      · subst hc
        simp [bump, hw, lookupCount]
      · simp [bump, hw, lookupCount, hc, ih]

theorem mem_keysOf_countColAux (i : Nat) (t : Table) : ∀ acc c,
    c ∈ keysOf (countColAux i acc t) ↔ c ∈ keysOf acc ∨ occursLong t i c := by
  induction t with
  | nil =>
    intro acc c
    simp [countColAux, occursLong_nil]
  | cons row rest ih =>
    intro acc c
    rw [show countColAux i acc (row :: rest) =
      countColAux i (match row[i]? with
        | some v => if v.length ≤ 2 then acc else bump acc v
        | none => acc) rest from rfl, ih, occursLong_cons]
    rcases hri : row[i]? with _ | v
    · simp [hri]
    · by_cases hlen : v.length ≤ 2
      · simp only [hri, if_pos hlen, Option.some.injEq]
        constructor
        · rintro (h | h)
          · exact Or.inl h
          · exact Or.inr (Or.inr h)
        · rintro (h | ⟨hvc, hcl⟩ | h)
          · exact Or.inl h
          · subst hvc; omega
          · exact Or.inr h
      · simp only [hri, if_neg hlen, Option.some.injEq]
        rw [mem_keysOf_bump]
        constructor
        · rintro ((h | h) | h)
          · exact Or.inl h
          · subst h
            exact Or.inr (Or.inl ⟨rfl, by omega⟩)
          · exact Or.inr (Or.inr h)
        · rintro (h | ⟨hvc, hcl⟩ | h)
          · exact Or.inl (Or.inl h)
          · exact Or.inl (Or.inr hvc.symm)
          · exact Or.inr h

theorem nodup_keysOf_countColAux (i : Nat) (t : Table) : ∀ acc,
    (keysOf acc).Nodup → (keysOf (countColAux i acc t)).Nodup := by
  induction t with
  | nil => intro acc h; exact h
  | cons row rest ih =>
    intro acc h
    rw [show countColAux i acc (row :: rest) =
      countColAux i (match row[i]? with
        | some v => if v.length ≤ 2 then acc else bump acc v
        | none => acc) rest from rfl]
    apply ih
    rcases hri : row[i]? with _ | v
    · simpa [hri] using h
    · by_cases hlen : v.length ≤ 2
      · simpa [hri, hlen] using h
      · simpa [hri, hlen] using nodup_keysOf_bump acc v h

/-- `numOccur t i v`: the number of cells equal to `v` in column `i` of `t`. -/
def numOccur : Table → Nat → String → Nat
  | [], _, _ => 0
  | row :: t, i, v =>
    (match row[i]? with
     | some w => if w = v then 1 else 0
     | none => 0) + numOccur t i v

theorem lookupCount_countColAux (i : Nat) (t : Table) (v : String) (hv : 2 < v.length) :
    ∀ acc, lookupCount (countColAux i acc t) v = lookupCount acc v + numOccur t i v := by
  induction t with
  | nil => intro acc; simp [countColAux, numOccur]
  | cons row rest ih =>
    intro acc
    rw [show countColAux i acc (row :: rest) =
      countColAux i (match row[i]? with
        | some v => if v.length ≤ 2 then acc else bump acc v
        | none => acc) rest from rfl, ih]
    rcases hri : row[i]? with _ | w
    · simp [numOccur, hri]
    · by_cases hlen : w.length ≤ 2
      · have hwv : ¬ (w = v) := fun h => by subst h; omega
        simp only [hri, if_pos hlen]
        simp [numOccur, hri, hwv]
      · simp only [hri, if_neg hlen, lookupCount_bump]
        have hno : numOccur (row :: rest) i v =
            (if w = v then 1 else 0) + numOccur rest i v := by
          simp [numOccur, hri]
        rw [hno]
        rcases eq_or_ne v w with h | h
        · subst h; simp; omega
        · have h2 : ¬ (w = v) := fun hh => h hh.symm
          simp [h, h2]

/-- The counter of `v` in the finished column counter is the number of
occurrences of `v` in that column (for a countable value, length `> 2`). -/
theorem lookupCount_countColumn (t : Table) (i : Nat) (v : String) (hv : 2 < v.length) :
    lookupCount (countColumn t i) v = numOccur t i v := by
  rw [countColumn, lookupCount_countColAux i t v hv []]
  simp [lookupCount]

theorem mem_keysOf_countColumn (t : Table) (i : Nat) (c : String) :
    c ∈ keysOf (countColumn t i) ↔ occursLong t i c := by
  rw [countColumn, mem_keysOf_countColAux]
  simp [keysOf]

theorem nodup_keysOf_countColumn (t : Table) (i : Nat) : (keysOf (countColumn t i)).Nodup := by
  apply nodup_keysOf_countColAux
  simp [keysOf]

/-! ### Lemmas: the stable descending sort -/

theorem insertDesc_perm (x : String × Nat) (l : List (String × Nat)) :
    (insertDesc x l).Perm (x :: l) := by
  induction l with
  | nil => exact List.Perm.refl _
  | cons y ys ih =>
    by_cases h : y.2 ≤ x.2
    · simp only [insertDesc, if_pos h]
      exact List.Perm.refl _
    · simp only [insertDesc, if_neg h]
      exact (List.Perm.cons y ih).trans (List.Perm.swap x y ys)

theorem sortDesc_perm (l : List (String × Nat)) : (sortDesc l).Perm l := by
  induction l with
  | nil => exact List.Perm.refl _
  | cons x xs ih => exact (insertDesc_perm x (sortDesc xs)).trans (List.Perm.cons x ih)

theorem insertDesc_pairwise (x : String × Nat) (l : List (String × Nat))
    (h : l.Pairwise (fun a b => b.2 ≤ a.2)) :
    (insertDesc x l).Pairwise (fun a b => b.2 ≤ a.2) := by
  induction l with
  | nil => simp [insertDesc]
  | cons y ys ih =>
    rw [List.pairwise_cons] at h
    by_cases hyx : y.2 ≤ x.2
    · simp only [insertDesc, if_pos hyx, List.pairwise_cons]
      refine ⟨?_, ?_⟩
      · intro z hz
        rcases List.mem_cons.mp hz with hz | hz
        · subst hz; exact hyx
        · exact le_trans (h.1 z hz) hyx
      · exact h
    · simp only [insertDesc, if_neg hyx, List.pairwise_cons]
      refine ⟨?_, ih h.2⟩
      intro z hz
      have hz2 : z ∈ x :: ys := (insertDesc_perm x ys).mem_iff.mp hz
      rcases List.mem_cons.mp hz2 with hz2 | hz2
      · subst hz2; omega
      · exact h.1 z hz2

theorem sortDesc_pairwise (l : List (String × Nat)) :
    (sortDesc l).Pairwise (fun a b => b.2 ≤ a.2) := by
  induction l with
  | nil => simp [sortDesc]
  | cons x xs ih => exact insertDesc_pairwise x (sortDesc xs) ih

theorem insertDesc_filter (x : String × Nat) (l : List (String × Nat)) (n : Nat) :
    (insertDesc x l).filter (fun p => p.2 == n) =
      if x.2 = n then x :: l.filter (fun p => p.2 == n)
      else l.filter (fun p => p.2 == n) := by
  induction l with
  | nil =>
    by_cases hx : x.2 = n <;> simp [insertDesc, List.filter_cons, hx]
  | cons y ys ih =>
    by_cases hyx : y.2 ≤ x.2
    · simp only [insertDesc, if_pos hyx]
      by_cases hx : x.2 = n <;> simp [List.filter_cons, hx]
    · simp only [insertDesc, if_neg hyx]
      by_cases hx : x.2 = n
      · have hy : ¬ (y.2 = n) := by omega
        simp [List.filter_cons, hy, ih, hx]
      · simp only [List.filter_cons, ih, if_neg hx]

theorem sortDesc_filter (l : List (String × Nat)) (n : Nat) :
    (sortDesc l).filter (fun p => p.2 == n) = l.filter (fun p => p.2 == n) := by
  induction l with
  | nil => rfl
  | cons x xs ih =>
    show (insertDesc x (sortDesc xs)).filter (fun p => p.2 == n) = _
    rw [insertDesc_filter]
    by_cases hx : x.2 = n <;> simp [List.filter_cons, hx, ih]

/-! ### Lemmas: the conversion map -/

theorem ne_empty_of_long {c : String} (h : 2 < c.length) : c ≠ "" := by
  intro hc
  subst hc
  simp [String.length] at h

theorem mem_get_conversion_map_iff (t : Table) (i : Nat) (c : String) :
    c ∈ get_conversion_map t i ↔ occursLong t i c := by
  unfold get_conversion_map
  rw [List.mem_filter]
  have hperm : ((sortDesc (countColumn t i)).map Prod.fst).Perm (keysOf (countColumn t i)) :=
    (sortDesc_perm (countColumn t i)).map Prod.fst
  rw [hperm.mem_iff, mem_keysOf_countColumn]
  constructor
  · rintro ⟨h, -⟩
    exact h
  · intro h
    rcases h with ⟨row, hrow, hcell, hlen⟩
    refine ⟨⟨row, hrow, hcell, hlen⟩, ?_⟩
    simpa using ne_empty_of_long hlen

theorem nodup_get_conversion_map (t : Table) (i : Nat) : (get_conversion_map t i).Nodup := by
  unfold get_conversion_map
  apply List.Nodup.filter
  have hperm : ((sortDesc (countColumn t i)).map Prod.fst).Perm (keysOf (countColumn t i)) :=
    (sortDesc_perm (countColumn t i)).map Prod.fst
  exact hperm.nodup_iff.mpr (nodup_keysOf_countColumn t i)

theorem long_of_mem_get_conversion_map {t : Table} {i : Nat} {v : String}
    (h : v ∈ get_conversion_map t i) : 2 < v.length := by
  rcases (mem_get_conversion_map_iff t i v).mp h with ⟨row, -, -, hlen⟩
  exact hlen

theorem countColumn_ne_nil_of_occursLong {t : Table} {i : Nat} {c : String}
    (h : occursLong t i c) : countColumn t i ≠ [] := by
  intro hnil
  have hm : c ∈ keysOf (countColumn t i) := (mem_keysOf_countColumn t i c).mpr h
  rw [hnil] at hm
  simp [keysOf] at hm

theorem conversionMapLookup_eq_some {t : Table} {i : Nat} (h : countColumn t i ≠ []) :
    conversionMapLookup t i = some (get_conversion_map t i) := by
  unfold conversionMapLookup
  rcases hc : countColumn t i with _ | ⟨p, rest⟩
  · exact absurd hc h
  · rfl

theorem lookupCount_eq_of_mem (l : List (String × Nat)) (hnd : (keysOf l).Nodup)
    (v : String) (n : Nat) (h : (v, n) ∈ l) : lookupCount l v = n := by
  induction l with
  | nil => simp at h
  | cons q rest ih =>
    obtain ⟨w, m⟩ := q
    simp only [keysOf, List.map_cons, List.nodup_cons] at hnd
    rcases List.mem_cons.mp h with h | h
    · obtain ⟨rfl, rfl⟩ : v = w ∧ n = m := Prod.mk.injEq .. ▸ h
      simp [lookupCount]
    · have hw : w ≠ v := by
        intro hwv
        subst hwv
        exact hnd.1 (List.mem_map.mpr ⟨(w, n), h, rfl⟩)
      simp [lookupCount, hw, ih hnd.2 h]

/-- In the finished counter, every stored count is the occurrence count. -/
theorem snd_eq_numOccur {t : Table} {i : Nat} {p : String × Nat}
    (hp : p ∈ countColumn t i) : p.2 = numOccur t i p.1 := by
  have hkey : p.1 ∈ keysOf (countColumn t i) := List.mem_map.mpr ⟨p, hp, rfl⟩
  have hocc : occursLong t i p.1 := (mem_keysOf_countColumn t i p.1).mp hkey
  have hlen : 2 < p.1.length := by
    rcases hocc with ⟨row, -, -, h⟩
    exact h
  have h1 : lookupCount (countColumn t i) p.1 = p.2 :=
    lookupCount_eq_of_mem _ (nodup_keysOf_countColumn t i) p.1 p.2 hp
  rw [← h1, lookupCount_countColumn t i p.1 hlen]

theorem pair_sublist_map {l : List (String × Nat)} {u v : String}
    (h : List.Sublist [u, v] (l.map Prod.fst)) :
    ∃ nu nv, List.Sublist [(u, nu), (v, nv)] l := by
  induction l with
  | nil => simp at h
  | cons p rest ih =>
    obtain ⟨w, m⟩ := p
    rw [List.map_cons] at h
    cases h with
    | cons _ h2 =>
      rcases ih h2 with ⟨nu, nv, hs⟩
      exact ⟨nu, nv, hs.cons (w, m)⟩
    | cons₂ _ h2 =>
      have hv : v ∈ rest.map Prod.fst := List.singleton_sublist.mp h2
      obtain ⟨q, hqmem, hq1⟩ := List.mem_map.mp hv
      refine ⟨m, q.2, List.Sublist.cons₂ (w, m) ?_⟩
      rw [List.singleton_sublist]
      rw [← hq1]
      exact hqmem

/-- C3: the built conversion map orders each column's distinct values by
occurrence count descending, and among values with equal counts the
first-seen relative order of the scan is preserved — stated both for the
sorted (value, count) pairs (the stable sort of compress.py line 84: for every
count the subsequence with that count is untouched) and for the final value
sequences (any two equal-count values appear in the map in their first-seen
order).  Building is a pure function of the table, so building twice yields
identical sequences, and the spec's frequency-ordering example holds. -/
theorem c3_frequency_ranking (t : Table) (i : Nat) :
    List.Pairwise (fun u v => numOccur t i v ≤ numOccur t i u) (get_conversion_map t i) ∧
    (∀ n, (sortDesc (countColumn t i)).filter (fun p => p.2 == n) =
      (countColumn t i).filter (fun p => p.2 == n)) ∧
    (∀ u v, List.Sublist [u, v] (get_conversion_map t i) →
      numOccur t i u = numOccur t i v →
      List.Sublist [u, v] (keysOf (countColumn t i))) ∧
    get_conversion_map t i = get_conversion_map t i ∧
    get_conversion_map
      [["apple"], ["banana"], ["apple"], ["cherry"], ["apple"], ["banana"]] 0 =
      ["apple", "banana", "cherry"] := by
  refine ⟨?_, fun n => sortDesc_filter _ n, ?_, rfl, by decide⟩
  · have hp : (sortDesc (countColumn t i)).Pairwise
        (fun p q => numOccur t i q.1 ≤ numOccur t i p.1) := by
      refine (sortDesc_pairwise (countColumn t i)).imp_of_mem ?_
      intro p q hpm hqm hle
      have hp2 := snd_eq_numOccur ((sortDesc_perm (countColumn t i)).mem_iff.mp hpm)
      have hq2 := snd_eq_numOccur ((sortDesc_perm (countColumn t i)).mem_iff.mp hqm)
      omega
    have hmap : ((sortDesc (countColumn t i)).map Prod.fst).Pairwise
        (fun u v => numOccur t i v ≤ numOccur t i u) :=
      (List.pairwise_map).mpr hp
    exact hmap.sublist (List.filter_sublist _)
  · intro u v hsub heq
    have hsub2 : List.Sublist [u, v] ((sortDesc (countColumn t i)).map Prod.fst) :=
      hsub.trans (List.filter_sublist _)
    rcases pair_sublist_map hsub2 with ⟨nu, nv, hpairs⟩
    have hu : (u, nu) ∈ countColumn t i :=
      (sortDesc_perm (countColumn t i)).mem_iff.mp (hpairs.subset (by simp))
    have hv : (v, nv) ∈ countColumn t i :=
      (sortDesc_perm (countColumn t i)).mem_iff.mp (hpairs.subset (by simp))
    have hnu : nu = numOccur t i u := snd_eq_numOccur hu
    have hnv : nv = numOccur t i v := snd_eq_numOccur hv
    have hnn : nu = nv := by rw [hnu, hnv, heq]
    subst hnn
    have hfil : List.Sublist [(u, nu), (v, nu)]
        ((sortDesc (countColumn t i)).filter (fun p => p.2 == nu)) := by
      have h1 := hpairs.filter (fun p => p.2 == nu)
      simpa using h1
    rw [sortDesc_filter] at hfil
    have h2 : List.Sublist [(u, nu), (v, nu)] (countColumn t i) :=
      hfil.trans (List.filter_sublist _)
    have h3 := h2.map Prod.fst
    simpa [keysOf] using h3

/-- Witness for C3 at a concrete table: the two values of
`[["aaa"], ["bbb"]]` both occur once, and the map preserves their first-seen
order, so they form a sublist of the first-seen key list. -/
theorem c3_frequency_ranking_witness :
    List.Sublist ["aaa", "bbb"] (keysOf (countColumn [["aaa"], ["bbb"]] 0)) :=
  (c3_frequency_ranking [["aaa"], ["bbb"]] 0).2.2.1 "aaa" "bbb" (by decide) (by decide)

/-- C5: every column sequence of the built conversion map has no duplicate
values, only values of literal length `> 2`, and never the empty string;
the spec's empty-string-exclusion example holds. -/
theorem c5_map_invariants (t : Table) (i : Nat) :
    (get_conversion_map t i).Nodup ∧
    (∀ v ∈ get_conversion_map t i, 2 < v.length) ∧
    "" ∉ get_conversion_map t i ∧
    get_conversion_map [[""], [""], ["hello world"], ["hello world"], ["hi"]] 0 =
      ["hello world"] := by
  refine ⟨nodup_get_conversion_map t i,
    fun v hv => long_of_mem_get_conversion_map hv, ?_, by decide⟩
  intro h
  have h2 := long_of_mem_get_conversion_map h
  simp [String.length] at h2

/-- Witness for C5 at a concrete table: `"hello world"` is in the built
sequence, hence its length is over 2. -/
theorem c5_map_invariants_witness : 2 < ("hello world" : String).length :=
  (c5_map_invariants [[""], [""], ["hello world"], ["hello world"], ["hi"]] 0).2.1
    "hello world" (by decide)

/-! ### Lemmas: encoder and decoder cells -/

theorem mem_of_getElem?_some {l : List String} {k : Nat} {c : String}
    (h : l[k]? = some c) : c ∈ l := by
  rcases List.getElem?_eq_some_iff.mp h with ⟨hlt, hEq⟩
  rw [← hEq]
  exact List.getElem_mem hlt

theorem encodeCell_short (cmap : Nat → List String) (i : Nat) (c : String)
    (h : c.length ≤ 2) : encodeCell cmap i c = .ok c := by
  simp [encodeCell, h]

theorem decodeCell_not_amp (cmap : Nat → Option (List String)) (i : Nat) (c : String)
    (h : headIsAmp c = false) : decodeCell cmap i c = .ok c := by
  unfold headIsAmp at h
  rcases hd : c.data with _ | ⟨ch, rest⟩
  · simp [decodeCell, hd]
  · rw [hd] at h
    simp only [decide_eq_false_iff_not] at h
    simp [decodeCell, hd, h]

theorem decodeCell_amp_reduce (cmap : Nat → Option (List String)) (i : Nat) (c : String)
    (rest : List Char) (hd : c.data = '&' :: rest) :
    decodeCell cmap i c =
      (match cmap i with
       | none => .error .keyError
       | some seq =>
         match pyIntParse rest with
         | none => .error .valueError
         | some pos =>
           match pyGet seq pos with
           | none => .error .indexError
           | some v => .ok v) := by
  simp [decodeCell, hd]

/-- The per-cell contract under which a cell survives encode-then-decode:
either it is short (skipped by the encoder) and free of the marker (skipped
by the decoder), or it is long, present in the encoder map at its column, and
the decoder map holds that same sequence for that column. -/
def GoodCell (fmap : Nat → List String) (omap : Nat → Option (List String))
    (j : Nat) (c : String) : Prop :=
  (c.length ≤ 2 ∧ headIsAmp c = false) ∨
  (2 < c.length ∧ c ∈ fmap j ∧ omap j = some (fmap j))

theorem encode_decode_cell (fmap : Nat → List String) (omap : Nat → Option (List String))
    (i : Nat) (c : String) (h : GoodCell fmap omap i c) :
    ∃ c2, encodeCell fmap i c = .ok c2 ∧ decodeCell omap i c2 = .ok c := by
  rcases h with ⟨hlen, hamp⟩ | ⟨hlen, hmem, homap⟩
  · exact ⟨c, encodeCell_short _ _ _ hlen, decodeCell_not_amp _ _ _ hamp⟩
  · rcases listIndex_mem (fmap i) c hmem with ⟨pos, hidx, hget⟩
    refine ⟨String.mk ('&' :: natDigits pos), ?_, ?_⟩
    · simp [encodeCell, show ¬ c.length ≤ 2 by omega, hidx]
    · rw [decodeCell_amp_reduce omap i _ (natDigits pos) rfl, homap,
        pyIntParse_natDigits pos]
      have hpg : pyGet (fmap i) ((pos : Nat) : Int) = (fmap i)[pos]? := by
        simp [pyGet]
      simp only [hpg, hget]

theorem encode_decode_rowAux (fmap : Nat → List String) (omap : Nat → Option (List String))
    (cs : List String) : ∀ i : Nat,
    (∀ k c, cs[k]? = some c → GoodCell fmap omap (i + k) c) →
    ∃ cs2, encodeRowAux fmap i cs = .ok cs2 ∧ decodeRowAux omap i cs2 = .ok cs := by
  induction cs with
  | nil => exact fun i _ => ⟨[], rfl, rfl⟩
  | cons c cs ih =>
    intro i h
    have hc : GoodCell fmap omap i c := by
      have h0 := h 0 c (by simp)
      simpa using h0
    rcases encode_decode_cell fmap omap i c hc with ⟨c2, he, hd⟩
    have htail : ∀ k x, cs[k]? = some x → GoodCell fmap omap ((i + 1) + k) x := by
      intro k x hk
      have hx := h (k + 1) x (by simpa using hk)
      have harith : i + (k + 1) = (i + 1) + k := by omega
      rwa [harith] at hx
    rcases ih (i + 1) htail with ⟨cs2, he2, hd2⟩
    exact ⟨c2 :: cs2, by simp [encodeRowAux, he, he2], by simp [decodeRowAux, hd, hd2]⟩

theorem encode_decode_table (fmap : Nat → List String) (omap : Nat → Option (List String))
    (rows : Table)
    (h : ∀ row ∈ rows, ∀ k c, row[k]? = some c → GoodCell fmap omap k c) :
    ∃ rows2, encodeTable fmap rows = .ok rows2 ∧ decodeTable omap rows2 = .ok rows := by
  induction rows with
  | nil => exact ⟨[], rfl, rfl⟩
  | cons row rest ih =>
    have hrow : ∀ k c, row[k]? = some c → GoodCell fmap omap (0 + k) c := by
      intro k c hk
      simpa using h row (by simp) k c hk
    rcases encode_decode_rowAux fmap omap row 0 hrow with ⟨row2, he, hd⟩
    rcases ih (fun r hr => h r (by simp [hr])) with ⟨rest2, he2, hd2⟩
    exact ⟨row2 :: rest2,
      by simp [encodeTable, encodeRow, he, he2],
      by simp [decodeTable, decodeRow, hd, hd2]⟩

/-! ### Claim C1 (corrected) -/

/-- C1 counterexample: for `T = [["&0"]]` the cell `"&0"` has length 2, so the
encoder leaves it unchanged, but the decoder matches its marker and looks up a
column that has no entry in the map — the claimed identity
`Decode(Encode(T, Build(T)), Build(T)) == T` fails at this `T` (the decode
raises instead of returning `T`). -/
theorem c1_roundtrip_counterexample :
    c1pipeline [["&0"]] = Except.error PyErr.keyError ∧
    c1pipeline [["&0"]] ≠ Except.ok [["&0"]] := by
  refine ⟨rfl, ?_⟩
  intro h
  have h0 : c1pipeline [["&0"]] = Except.error PyErr.keyError := rfl
  rw [h0] at h
  exact Except.noConfusion h

/-- C1 amended: for every table in which no cell of length `≤ 2` starts with
the marker character `&` (the spec's own open question is exactly these
cells), the round trip `Decode(Encode(T, Build(T)), Build(T))` returns `T`
cell-for-cell. -/
theorem c1_roundtrip_amended (t : Table)
    (h : ∀ row ∈ t, ∀ c ∈ row, c.length ≤ 2 → headIsAmp c = false) :
    c1pipeline t = .ok t := by
  have hG : ∀ row ∈ t, ∀ k c, row[k]? = some c →
      GoodCell (get_conversion_map t) (conversionMapLookup t) k c := by
    intro row hrow k c hk
    by_cases hlen : c.length ≤ 2
    · left
      have hcm : c ∈ row := mem_of_getElem?_some hk
      exact ⟨hlen, h row hrow c hcm hlen⟩
    · right
      have hocc : occursLong t k c := ⟨row, hrow, hk, by omega⟩
      refine ⟨by omega, (mem_get_conversion_map_iff t k c).mpr hocc,
        conversionMapLookup_eq_some (countColumn_ne_nil_of_occursLong hocc)⟩
  rcases encode_decode_table _ _ t hG with ⟨enc, he, hd⟩
  simp [c1pipeline, he, hd]

/-- Witness for the amended C1 on a concrete table (marker-free short cells). -/
theorem c1_roundtrip_amended_witness :
    c1pipeline [["apple", "xy"], ["apple", "zz"]] =
      .ok [["apple", "xy"], ["apple", "zz"]] :=
  c1_roundtrip_amended [["apple", "xy"], ["apple", "zz"]] (by decide)

/-! ### Claim C4 (confirmed) -/

theorem encodeCell_total (fmap : Nat → List String) (i : Nat) (c : String)
    (h : 2 < c.length → c ∈ fmap i) :
    ∃ c2, encodeCell fmap i c = .ok c2 := by
  by_cases hlen : c.length ≤ 2
  · exact ⟨c, encodeCell_short _ _ _ hlen⟩
  · rcases listIndex_mem (fmap i) c (h (by omega)) with ⟨pos, hidx, -⟩
    exact ⟨String.mk ('&' :: natDigits pos),
      by simp [encodeCell, hlen, hidx]⟩

theorem encodeRowAux_total (fmap : Nat → List String) (cs : List String) : ∀ i : Nat,
    (∀ k c, cs[k]? = some c → 2 < c.length → c ∈ fmap (i + k)) →
    ∃ cs2, encodeRowAux fmap i cs = .ok cs2 := by
  induction cs with
  | nil => exact fun i _ => ⟨[], rfl⟩
  | cons c cs ih =>
    intro i h
    rcases encodeCell_total fmap i c (by
      intro hlen
      have h0 := h 0 c (by simp) hlen
      simpa using h0) with ⟨c2, he⟩
    rcases ih (i + 1) (by
      intro k x hk hlen
      have hx := h (k + 1) x (by simpa using hk) hlen
      have harith : i + (k + 1) = (i + 1) + k := by omega
      rwa [harith] at hx) with ⟨cs2, he2⟩
    exact ⟨c2 :: cs2, by simp [encodeRowAux, he, he2]⟩

theorem encodeTable_total (fmap : Nat → List String) (rows : Table)
    (h : ∀ row ∈ rows, ∀ k c, row[k]? = some c → 2 < c.length → c ∈ fmap k) :
    ∃ rows2, encodeTable fmap rows = .ok rows2 := by
  induction rows with
  | nil => exact ⟨[], rfl⟩
  | cons row rest ih =>
    rcases encodeRowAux_total fmap row 0 (by
      intro k c hk hlen
      simpa using h row (by simp) k c hk hlen) with ⟨row2, he⟩
    rcases ih (fun r hr => h r (by simp [hr])) with ⟨rest2, he2⟩
    exact ⟨row2 :: rest2, by simp [encodeTable, encodeRow, he, he2]⟩

/-- C4: when the conversion map is built from the very table being encoded,
the encoder's `list.index` lookup succeeds on every cell of length `> 2`
(the whole encode run returns a table instead of raising), and a value absent
from the map because it is the empty string is left as a literal. -/
theorem c4_encoder_lookup_total (t : Table) :
    (∃ enc, encodeTable (get_conversion_map t) t = .ok enc) ∧
    (∀ cmap i, encodeCell cmap i "" = .ok "") := by
  constructor
  · refine encodeTable_total (get_conversion_map t) t ?_
    intro row hrow k c hk hlen
    exact (mem_get_conversion_map_iff t k c).mpr ⟨row, hrow, hk, hlen⟩
  · intro cmap i
    exact encodeCell_short cmap i "" (by simp [String.length])

/-! ### Claim C2 (corrected) -/

/-- C2 counterexample: the marker-prefixed cell `"&-1"` has the suffix `-1`,
which is not a valid non-negative integer, yet against a one-entry column
sequence the decoder does not signal an error — Python's `int` parses the
sign and `seq[-1]` indexes from the end, so `"apple"` is substituted. -/
theorem c2_decode_errors_counterexample :
    decodeCell (conversionMapLookup [["apple"]]) 0 "&-1" = Except.ok "apple" ∧
    pyIntParse ['-', '1'] = some (-1) := ⟨rfl, rfl⟩

/-- C2 amended: a marker-prefixed cell raises CorruptData exactly in the cases
the code can raise: when Python's `int` cannot parse the suffix (ValueError),
when the parsed index is out of bounds under Python sequence indexing — i.e.
`pos ≥ len` or `pos < -len` (IndexError) — or when the cell's column index has
no entry in the conversion map (KeyError); in particular `&99` against a
sequence of fewer than 100 entries raises rather than substituting.  (A suffix
that parses as a negative integer within `[-len, -1]` is *not* an error: the
value at `len + pos` is silently substituted, see the C9 theorem.) -/
theorem c2_decode_errors_amended (cmap : Nat → Option (List String)) (i : Nat)
    (c : String) (rest : List Char) (hc : c.data = '&' :: rest) :
    (cmap i = none → decodeCell cmap i c = .error .keyError) ∧
    (∀ seq, cmap i = some seq → pyIntParse rest = none →
      decodeCell cmap i c = .error .valueError) ∧
    (∀ seq pos, cmap i = some seq → pyIntParse rest = some pos → pyGet seq pos = none →
      decodeCell cmap i c = .error .indexError) ∧
    (∀ seq, cmap i = some seq → seq.length < 100 →
      decodeCell cmap i "&99" = .error .indexError) := by
  rw [decodeCell_amp_reduce cmap i c rest hc]
  refine ⟨?_, ?_, ?_, ?_⟩
  · intro h
    simp [h]
  · intro seq hs hp
    simp [hs, hp]
  · intro seq pos hs hp hg
    simp [hs, hp, hg]
  · intro seq hs hlen
    rw [decodeCell_amp_reduce cmap i "&99" ['9', '9'] rfl, hs]
    have hp : pyIntParse ['9', '9'] = some (99 : Int) := rfl
    rw [hp]
    have hg : pyGet seq (99 : Int) = none := by
      have h0 : (0 : Int) ≤ 99 := by omega
      simp only [pyGet, if_pos h0]
      rw [List.getElem?_eq_none]
      omega
    simp [hg]

/-- Witness for the amended C2: against the map of the table `[["apple"]]`
(column sequence of a single entry), the cell `&99` raises IndexError. -/
theorem c2_decode_errors_amended_witness :
    decodeCell (conversionMapLookup [["apple"]]) 0 "&99" = .error .indexError :=
  (c2_decode_errors_amended (conversionMapLookup [["apple"]]) 0 "&99" ['9', '9']
    rfl).2.2.2 ["apple"] (by decide) (by decide)

/-! ### Claim C6 (confirmed) -/

/-- C6: a cell of literal length `≤ 2` is left unchanged by the encoder, and
— provided it does not start with the marker character — it does not match
the decoder's marker test either, so it passes through both directions
unaltered. -/
theorem c6_short_cells_unaltered (fmap : Nat → List String)
    (omap : Nat → Option (List String)) (i : Nat) (c : String) :
    (c.length ≤ 2 → encodeCell fmap i c = .ok c) ∧
    (headIsAmp c = false → decodeCell omap i c = .ok c) :=
  ⟨fun h => encodeCell_short fmap i c h, fun h => decodeCell_not_amp omap i c h⟩

/-- Witness for C6 on the concrete short marker-free cell `"xy"`. -/
theorem c6_short_cells_unaltered_witness :
    encodeCell (fun _ => []) 0 "xy" = .ok "xy" ∧
    decodeCell (fun _ => none) 0 "xy" = .ok "xy" :=
  ⟨(c6_short_cells_unaltered (fun _ => []) (fun _ => none) 0 "xy").1 (by decide),
   (c6_short_cells_unaltered (fun _ => []) (fun _ => none) 0 "xy").2 (by decide)⟩

/-! ### Claim C7 (confirmed) -/

/-- C7: per decoded cell at column `i`: a cell that does not begin with the
marker is passed through exactly unchanged; a cell that begins with the marker
and decodes successfully was replaced by the value of the column-`i` sequence
at the parsed index (under Python indexing). -/
theorem c7_decode_cell_cases (cmap : Nat → Option (List String)) (i : Nat) (c : String) :
    (headIsAmp c = false → decodeCell cmap i c = .ok c) ∧
    (headIsAmp c = true → ∀ v, decodeCell cmap i c = .ok v →
      ∃ seq pos, cmap i = some seq ∧ pyIntParse (c.data.drop 1) = some pos ∧
        pyGet seq pos = some v) := by
  refine ⟨fun h => decodeCell_not_amp cmap i c h, ?_⟩
  intro hamp v hok
  unfold headIsAmp at hamp
  rcases hd : c.data with _ | ⟨ch, rest⟩
  · rw [hd] at hamp
    simp at hamp
  · rw [hd] at hamp
    simp only [decide_eq_true_eq] at hamp
    subst hamp
    rw [decodeCell_amp_reduce cmap i c rest hd] at hok
    rcases hcm : cmap i with _ | seq
    · simp only [hcm] at hok
      simp at hok
    · simp only [hcm] at hok
      rcases hp : pyIntParse rest with _ | pos
      · simp only [hp] at hok
        simp at hok
      · simp only [hp] at hok
        rcases hg : pyGet seq pos with _ | w
        · simp only [hg] at hok
          simp at hok
        · simp only [hg, Except.ok.injEq] at hok
          subst hok
          exact ⟨seq, pos, rfl, by simp [hd, hp], hg⟩

/-- Witness for C7: decoding `&1` against the sequence
`["apple", "banana", "cherry"]` yields the value at index 1. -/
theorem c7_decode_cell_cases_witness :
    ∃ seq pos, (fun _ : Nat => some ["apple", "banana", "cherry"]) 0 = some seq ∧
      pyIntParse (("&1" : String).data.drop 1) = some pos ∧
      pyGet seq pos = some "banana" :=
  (c7_decode_cell_cases (fun _ => some ["apple", "banana", "cherry"]) 0 "&1").2
    (by decide) "banana" rfl

/-! ### Claim C9 (confirmed) -/

/-- C9: a marker-prefixed cell whose suffix parses as a negative integer `-k`
with `1 ≤ k ≤ len` does not raise: the decoder silently substitutes the
element at position `len - k` of the column's sequence (counting from the
end), exactly as Python indexing does. -/
theorem c9_negative_index_silent (cmap : Nat → Option (List String)) (i : Nat)
    (seq : List String) (k : Nat) (hs : cmap i = some seq)
    (h1 : 1 ≤ k) (h2 : k ≤ seq.length) :
    ∃ v, seq[seq.length - k]? = some v ∧
      decodeCell cmap i (String.mk ('&' :: '-' :: natDigits k)) = .ok v := by
  have hlt : seq.length - k < seq.length := by omega
  rcases hv : seq[seq.length - k]? with _ | v
  · rw [List.getElem?_eq_none_iff] at hv
    omega
  · refine ⟨v, rfl, ?_⟩
    rw [decodeCell_amp_reduce cmap i _ ('-' :: natDigits k) rfl, hs,
      pyIntParse_neg_natDigits k]
    simp only [pyGet_neg seq k h1 h2, hv]

/-- Witness for C9: `&-1` against the two-entry sequence substitutes the last
entry, `"banana"`. -/
theorem c9_negative_index_silent_witness :
    ∃ v, (["apple", "banana"] : List String)[(["apple", "banana"] : List String).length - 1]? =
        some v ∧
      decodeCell (fun _ => some ["apple", "banana"]) 0
        (String.mk ('&' :: '-' :: natDigits 1)) = .ok v :=
  c9_negative_index_silent (fun _ => some ["apple", "banana"]) 0 ["apple", "banana"] 1
    rfl (by decide) (by decide)

/-! ### Claim C8 (confirmed) -/

theorem countColAux_ext (i j : Nat) (hij : i ≠ j) (t t2 : Table)
    (h : List.Forall₂ (fun row row2 => ∀ k, k ≠ j → row[k]? = row2[k]?) t t2) :
    ∀ acc, countColAux i acc t = countColAux i acc t2 := by
  induction h with
  | nil => intro acc; rfl
  | @cons row row2 rest rest2 hrow htail ih =>
    intro acc
    rw [show countColAux i acc (row :: rest) =
      countColAux i (match row[i]? with
        | some v => if v.length ≤ 2 then acc else bump acc v
        | none => acc) rest from rfl,
      show countColAux i acc (row2 :: rest2) =
      countColAux i (match row2[i]? with
        | some v => if v.length ≤ 2 then acc else bump acc v
        | none => acc) rest2 from rfl,
      hrow i hij]
    exact ih _

/-- C8: two tables that differ only in column `j` (row for row, every other
cell identical) produce identical conversion-map entries for every column
`i ≠ j` — both as the encoder's sequence and as the decoder's map entry —
and the encoder produces identical coded references for column `i`'s cells. -/
theorem c8_column_independence (t t2 : Table) (j : Nat)
    (h : List.Forall₂ (fun row row2 => ∀ k, k ≠ j → row[k]? = row2[k]?) t t2)
    (i : Nat) (hij : i ≠ j) :
    get_conversion_map t i = get_conversion_map t2 i ∧
    conversionMapLookup t i = conversionMapLookup t2 i ∧
    ∀ c, encodeCell (get_conversion_map t) i c = encodeCell (get_conversion_map t2) i c := by
  have hcc : countColumn t i = countColumn t2 i := countColAux_ext i j hij t t2 h []
  have hmap : get_conversion_map t i = get_conversion_map t2 i := by
    unfold get_conversion_map
    rw [hcc]
  refine ⟨hmap, ?_, ?_⟩
  · unfold conversionMapLookup
    rw [hcc, hmap]
  · intro c
    simp [encodeCell, hmap]

/-- Witness for C8: `[["aaa", "xxx"]]` and `[["aaa", "yyy"]]` differ only in
column 1, and their column-0 map sequences agree. -/
theorem c8_column_independence_witness :
    get_conversion_map [["aaa", "xxx"]] 0 = get_conversion_map [["aaa", "yyy"]] 0 :=
  (c8_column_independence [["aaa", "xxx"]] [["aaa", "yyy"]] 1
    (by
      refine List.Forall₂.cons ?_ List.Forall₂.nil
      intro k hk
      match k with
      | 0 => rfl
      | 1 => exact absurd rfl hk
      | k + 2 => simp)
    0 (by decide)).1

/-! ### The compressed artifact (claim C10)

`compress_csv_and_save` (compress.py lines 90-113) writes `json.dump` of the
conversion map (which emits no trailing newline), then `csv_writer.writerow('')`
— a row of zero fields, i.e. a bare line terminator — then the transformed
rows.  `decompress_file_and_save` (decompress.py lines 20-42) reads the first
line with `readline`, parses it with `json.loads`, and feeds the remainder to
`csv.reader`.

The row codec (an excluded collaborator per the spec) is modelled with `\n` as
the line terminator and without quoting: its domain here is cells free of
`,`, `"`, `\` and control characters, and rows other than `[""]` (Python's
`csv` quotes exactly such material; the theorems below carry these
hypotheses).  `json.dump` is modelled with its default separators `", "` and
`": "` and ensure_ascii escaping; `json.loads` is modelled by a parser of the
same grammar (surrogate-pair recombination of `\uXXXX` escapes is not
modelled; no theorem exercises escapes). -/

/-- One `csv.writer.writerow` record: cells joined by `,` plus the terminator.
`csvLineChars [] = ['\n']` is the `writerow('')` empty record. -/
def csvLineChars : List String → List Char
  | [] => ['\n']
  | [c] => c.data ++ ['\n']
  | c :: c2 :: rest => c.data ++ ',' :: csvLineChars (c2 :: rest)

/-- The serialized transformed rows, in order. -/
def tableChars : Table → List Char
  | [] => []
  | row :: rows => csvLineChars row ++ tableChars rows

/-- Scan one row for columns that receive their first counted (length `> 2`)
value, appending new column indices in encounter order — the insertion order
of the outer `columns_counter` dict keys. -/
def rowColKeys : List Nat → Nat → List String → List Nat
  | acc, _, [] => acc
  | acc, i, c :: cs =>
    rowColKeys
      (if c.length ≤ 2 then acc else if acc.contains i then acc else acc ++ [i])
      (i + 1) cs

def colKeysAux : List Nat → Table → List Nat
  | acc, [] => acc
  | acc, row :: t => colKeysAux (rowColKeys acc 0 row) t

/-- The keys of the conversion-map dict, in insertion order. -/
def colKeys (t : Table) : List Nat := colKeysAux [] t

/-- Lower-case hex digit (as `json.dump` emits in `\uXXXX`). -/
def jsonHexDigitChar (n : Nat) : Char := if n < 10 then digitChar n else Char.ofNat (87 + n)

def jsonU (n : Nat) : List Char :=
  ['\\', 'u', jsonHexDigitChar (n / 4096 % 16), jsonHexDigitChar (n / 256 % 16),
    jsonHexDigitChar (n / 16 % 16), jsonHexDigitChar (n % 16)]

/-- `json.dump` escaping of one character (default `ensure_ascii=True`).
Astral characters are emitted as a surrogate pair of `\uXXXX` escapes. -/
def jsonEscChar (c : Char) : List Char :=
  if c = '"' then ['\\', '"']
  else if c = '\\' then ['\\', '\\']
  else if c = '\n' then ['\\', 'n']
  else if c = '\r' then ['\\', 'r']
  else if c = '\t' then ['\\', 't']
  else if c.toNat = 8 then ['\\', 'b']
  else if c.toNat = 12 then ['\\', 'f']
  else if c.toNat < 32 then jsonU c.toNat
  else if c.toNat < 127 then [c]
  else if c.toNat < 65536 then jsonU c.toNat
  else jsonU (55296 + (c.toNat - 65536) / 1024) ++ jsonU (56320 + (c.toNat - 65536) % 1024)

/-- A JSON string literal. -/
def jsonStrChars (s : String) : List Char :=
  '"' :: s.data.foldr (fun c acc => jsonEscChar c ++ acc) ['"']

/-- JSON list elements, `", "`-separated (the default item separator). -/
def jsonItemsChars : List String → List Char
  | [] => []
  | [s] => jsonStrChars s
  | s :: s2 :: rest => jsonStrChars s ++ ',' :: ' ' :: jsonItemsChars (s2 :: rest)

def jsonListChars (l : List String) : List Char := '[' :: (jsonItemsChars l ++ [']'])

/-- One map entry `"k": [...]` (the int key is rendered through `str`). -/
def jsonEntryChars (t : Table) (k : Nat) : List Char :=
  jsonStrChars (natRepr k) ++ ':' :: ' ' :: jsonListChars (get_conversion_map t k)

def jsonEntriesChars (t : Table) : List Nat → List Char
  | [] => []
  | [k] => jsonEntryChars t k
  | k :: k2 :: rest => jsonEntryChars t k ++ ',' :: ' ' :: jsonEntriesChars t (k2 :: rest)

/-- `json.dump(conversion_map, ...)`: one line, no trailing newline. -/
def jsonMapChars (t : Table) : List Char :=
  '\x7b' :: (jsonEntriesChars t (colKeys t) ++ ['\x7d'])

/-- compress.py lines 90-113: dump the map, write one empty record, then the
encoded rows; the whole artifact as a single string. -/
def compress_csv_and_save (t : Table) : Except PyErr String :=
  match encodeTable (get_conversion_map t) t with
  | .error e => .error e
  | .ok enc => .ok (String.mk (jsonMapChars t ++ csvLineChars [] ++ tableChars enc))

/-- `readline`: everything up to and including the first newline, and the rest. -/
def splitAtNl : List Char → List Char × List Char
  | [] => ([], [])
  | c :: cs =>
    if c = '\n' then ([c], cs)
    else
      let p := splitAtNl cs
      (c :: p.1, p.2)

/-- Split a record at commas (`cur` holds the current field reversed). -/
def splitCommasAux : List Char → List Char → List (List Char)
  | cur, [] => [cur.reverse]
  | cur, c :: cs =>
    if c = ',' then cur.reverse :: splitCommasAux [] cs
    else splitCommasAux (c :: cur) cs

/-- One `csv.reader` row from one line (a blank line yields the empty row). -/
def parseCsvLine (l : List Char) : List String :=
  match l with
  | [] => []
  | _ => (splitCommasAux [] l).map String.mk

/-- Split a character stream into lines (terminators dropped; an unterminated
final line still counts). -/
def splitLinesAux : List Char → List Char → List (List Char)
  | cur, [] => if cur = [] then [] else [cur.reverse]
  | cur, c :: cs =>
    if c = '\n' then cur.reverse :: splitLinesAux [] cs
    else splitLinesAux (c :: cur) cs

/-- The row stream `csv.reader` yields from the remainder of the file. -/
def parseCsvRows (l : List Char) : Table := (splitLinesAux [] l).map parseCsvLine

/-- Hex digit value, both cases (for `\uXXXX` in the parser). -/
def hexVal (c : Char) : Option Nat :=
  if isDig c then some (digVal c)
  else if 97 ≤ c.toNat && c.toNat ≤ 102 then some (c.toNat - 87)
  else if 65 ≤ c.toNat && c.toNat ≤ 70 then some (c.toNat - 55)
  else none

/-- JSON whitespace (as `json.loads` skips between tokens). -/
def jsonWsB (c : Char) : Bool := c = ' ' || c = '\t' || c = '\n' || c = '\r'

def skipJsonWs (l : List Char) : List Char := l.dropWhile jsonWsB

/-- JSON string body after the opening quote: content up to the closing quote
and the rest of the input.  (Surrogate-pair recombination is not modelled;
the escape branches are not exercised by any theorem below.) -/
def jsonStrBody : List Char → Option (List Char × List Char)
  | [] => none
  | c :: cs =>
    if c = '"' then some ([], cs)
    else if c = '\\' then
      match cs with
      | [] => none
      | e :: cs2 =>
        if e = '"' then (jsonStrBody cs2).map (fun p => ('"' :: p.1, p.2))
        else if e = '\\' then (jsonStrBody cs2).map (fun p => ('\\' :: p.1, p.2))
        else if e = '/' then (jsonStrBody cs2).map (fun p => ('/' :: p.1, p.2))
        else if e = 'n' then (jsonStrBody cs2).map (fun p => ('\n' :: p.1, p.2))
        else if e = 'r' then (jsonStrBody cs2).map (fun p => ('\r' :: p.1, p.2))
        else if e = 't' then (jsonStrBody cs2).map (fun p => ('\t' :: p.1, p.2))
        else if e = 'b' then (jsonStrBody cs2).map (fun p => (Char.ofNat 8 :: p.1, p.2))
        else if e = 'f' then (jsonStrBody cs2).map (fun p => (Char.ofNat 12 :: p.1, p.2))
        else if e = 'u' then
          match cs2 with
          | h1 :: h2 :: h3 :: h4 :: cs3 =>
            match hexVal h1, hexVal h2, hexVal h3, hexVal h4 with
            | some a, some b, some c2, some d =>
              (jsonStrBody cs3).map (fun p =>
                (Char.ofNat (4096 * a + 256 * b + 16 * c2 + d) :: p.1, p.2))
            | _, _, _, _ => none
          | _ => none
        else none
    else (jsonStrBody cs).map (fun p => (c :: p.1, p.2))

/-- A JSON string token (leading whitespace allowed). -/
def parseJsonStr (l : List Char) : Option (List Char × List Char) :=
  match skipJsonWs l with
  | [] => none
  | c :: cs => if c = '"' then jsonStrBody cs else none

/-- Elements of a JSON list of strings, after the opening `[` of a nonempty
list; fuel bounds the number of elements. -/
def jsonListItemsAux : Nat → List Char → Option (List (List Char) × List Char)
  | 0, _ => none
  | fuel + 1, l =>
    match parseJsonStr l with
    | none => none
    | some (s, rest) =>
      match skipJsonWs rest with
      | [] => none
      | c :: rest2 =>
        if c = ',' then
          match jsonListItemsAux fuel rest2 with
          | none => none
          | some (items, rest3) => some (s :: items, rest3)
        else if c = ']' then some ([s], rest2)
        else none

/-- A JSON list of strings. -/
def parseJsonStrList (l : List Char) : Option (List (List Char) × List Char) :=
  match skipJsonWs l with
  | [] => none
  | c :: cs =>
    if c = '[' then
      match skipJsonWs cs with
      | [] => none
      | c2 :: rest => if c2 = ']' then some ([], rest) else jsonListItemsAux (cs.length + 1) cs
    else none

/-- Entries of a JSON object mapping strings to string lists, after the
opening brace of a nonempty object. -/
def jsonMapItemsAux :
    Nat → List Char → Option (List (List Char × List (List Char)) × List Char)
  | 0, _ => none
  | fuel + 1, l =>
    match parseJsonStr l with
    | none => none
    | some (key, rest) =>
      match skipJsonWs rest with
      | [] => none
      | c :: rest2 =>
        if c = ':' then
          match parseJsonStrList rest2 with
          | none => none
          | some (items, rest3) =>
            match skipJsonWs rest3 with
            | [] => none
            | c2 :: rest4 =>
              if c2 = ',' then
                match jsonMapItemsAux fuel rest4 with
                | none => none
                | some (entries, rest5) => some ((key, items) :: entries, rest5)
              else if c2 = '\x7d' then some ([(key, items)], rest4)
              else none
        else none

/-- `json.loads` of the map line: an object of string keys and string-list
values, with nothing but whitespace after it; `none` models
`json.JSONDecodeError`. -/
def jsonLoadsMap (s : String) : Option (List (String × List String)) :=
  match skipJsonWs s.data with
  | [] => none
  | c :: cs =>
    if c = '\x7b' then
      let entries : Option (List (List Char × List (List Char)) × List Char) :=
        match skipJsonWs cs with
        | [] => none
        | c2 :: rest => if c2 = '\x7d' then some ([], rest) else jsonMapItemsAux (cs.length + 1) cs
      match entries with
      | none => none
      | some p =>
        if skipJsonWs p.2 = [] then
          some (p.1.map (fun e => (String.mk e.1, e.2.map String.mk)))
        else none
    else none

/-- decompress.py lines 20-42: `readline` the map line, `json.loads` it, then
decode the csv rows of the remainder; `conversion_map[str(index)]` is the
lookup of the key `str(index)` in the parsed dict. -/
def decompress_file_and_save (artifact : String) : Except PyErr Table :=
  let p := splitAtNl artifact.data
  match jsonLoadsMap (String.mk p.1) with
  | none => .error .jsonError
  | some m =>
    decodeTable (fun i => (m.find? (fun e => e.1 == natRepr i)).map (fun e => e.2))
      (parseCsvRows p.2)

/-- The whole pipeline at file level: compress to an artifact, decompress it. -/
def compress_then_decompress (t : Table) : Except PyErr Table :=
  match compress_csv_and_save t with
  | .error e => .error e
  | .ok artifact => decompress_file_and_save artifact

example :
    compress_csv_and_save [["aaa"]] = .ok "\x7b\"0\": [\"aaa\"]\x7d\n&0\n" := rfl

example : compress_then_decompress [["aaa"]] = .ok [["aaa"]] := rfl

example :
    compress_then_decompress [["apple", "xy"], ["apple", "zz"]] =
      .ok [["apple", "xy"], ["apple", "zz"]] := rfl

/-! ### Claim C10 (corrected) -/

/-- C10 counterexample: for `T = [["aaa"]]` the artifact is the map line
followed directly by the transformed row `&0` — `json.dump` writes no
newline, so the empty `writerow('')` record merely terminates the map line;
the decoder's `readline` consumes it, the csv reader sees `[["&0"]]` with no
empty row, and the decompressed output is `T` itself, not `[] :: T`. -/
theorem c10_empty_row_counterexample :
    compress_csv_and_save [["aaa"]] = .ok "\x7b\"0\": [\"aaa\"]\x7d\n&0\n" ∧
    parseCsvRows (splitAtNl ("\x7b\"0\": [\"aaa\"]\x7d\n&0\n" : String).data).2 = [["&0"]] ∧
    compress_then_decompress [["aaa"]] = Except.ok [["aaa"]] ∧
    compress_then_decompress [["aaa"]] ≠ Except.ok [[], ["aaa"]] := by
  refine ⟨rfl, rfl, rfl, ?_⟩
  intro h
  have h0 : compress_then_decompress [["aaa"]] = Except.ok [["aaa"]] := rfl
  rw [h0] at h
  injection h with h2
  exact absurd h2 (by decide)

/-! ### Lemmas: the csv row codec -/

theorem String_mk_data (s : String) : String.mk s.data = s := by
  obtain ⟨l⟩ := s
  rfl

theorem data_ne_nil_of_ne_empty {c : String} (h : c ≠ "") : c.data ≠ [] := by
  intro hd
  apply h
  rw [← String_mk_data c, hd]

theorem splitAtNl_append (l1 l2 : List Char) (h : ∀ c ∈ l1, c ≠ '\n') :
    splitAtNl (l1 ++ '\n' :: l2) = (l1 ++ ['\n'], l2) := by
  induction l1 with
  | nil => simp [splitAtNl]
  | cons c cs ih =>
    have hc : c ≠ '\n' := h c (by simp)
    simp [splitAtNl, hc, ih (fun x hx => h x (by simp [hx]))]

theorem splitCommasAux_append (l1 : List Char) (h : ∀ c ∈ l1, c ≠ ',') :
    ∀ cur rest, splitCommasAux cur (l1 ++ rest) = splitCommasAux (l1.reverse ++ cur) rest := by
  induction l1 with
  | nil => intro cur rest; simp
  | cons c cs ih =>
    intro cur rest
    have hc : c ≠ ',' := h c (by simp)
    show splitCommasAux cur (c :: (cs ++ rest)) = _
    rw [show splitCommasAux cur (c :: (cs ++ rest)) =
      if c = ',' then cur.reverse :: splitCommasAux [] (cs ++ rest)
      else splitCommasAux (c :: cur) (cs ++ rest) from rfl, if_neg hc,
      ih (fun x hx => h x (by simp [hx])) (c :: cur) rest]
    simp

/-- One csv record's content (without the line terminator). -/
def rowContentChars : List String → List Char
  | [] => []
  | [c] => c.data
  | c :: c2 :: rest => c.data ++ ',' :: rowContentChars (c2 :: rest)

theorem csvLineChars_eq (row : List String) :
    csvLineChars row = rowContentChars row ++ ['\n'] := by
  induction row with
  | nil => rfl
  | cons c rest ih =>
    cases rest with
    | nil => rfl
    | cons c2 rest2 =>
      show c.data ++ ',' :: csvLineChars (c2 :: rest2) = _
      rw [ih]
      simp [rowContentChars]

theorem splitCommas_rowContent (row : List String) (hrow : row ≠ [])
    (hwf : ∀ c ∈ row, ∀ ch ∈ c.data, ch ≠ ',') :
    splitCommasAux [] (rowContentChars row) = row.map String.data := by
  induction row with
  | nil => exact absurd rfl hrow
  | cons c rest ih =>
    cases rest with
    | nil =>
      show splitCommasAux [] c.data = [c.data]
      rw [show c.data = c.data ++ ([] : List Char) by simp,
        splitCommasAux_append c.data (fun ch hch => hwf c (by simp) ch hch) [] []]
      simp [splitCommasAux]
    | cons c2 rest2 =>
      show splitCommasAux [] (c.data ++ ',' :: rowContentChars (c2 :: rest2)) = _
      rw [splitCommasAux_append c.data (fun ch hch => hwf c (by simp) ch hch) []
        (',' :: rowContentChars (c2 :: rest2)),
        show splitCommasAux (c.data.reverse ++ []) (',' :: rowContentChars (c2 :: rest2)) =
          (c.data.reverse ++ []).reverse ::
            splitCommasAux [] (rowContentChars (c2 :: rest2)) from by
          simp [splitCommasAux],
        ih (by simp) (fun x hx ch hch => hwf x (by simp [hx]) ch hch)]
      simp

theorem parseCsvLine_rowContent (row : List String) (hne : row ≠ [""])
    (hwf : ∀ c ∈ row, ∀ ch ∈ c.data, ch ≠ ',') :
    parseCsvLine (rowContentChars row) = row := by
  cases row with
  | nil => rfl
  | cons c rest =>
    cases rest with
    | nil =>
      have hc : c ≠ "" := by
        intro h
        exact hne (by rw [h])
      have hd : rowContentChars [c] ≠ [] := data_ne_nil_of_ne_empty hc
      unfold parseCsvLine
      rcases hdd : rowContentChars [c] with _ | ⟨x, xs⟩
      · exact absurd hdd hd
      · rw [← hdd, splitCommas_rowContent [c] (by simp) hwf]
        simp [Function.comp, String_mk_data]
    | cons c2 rest2 =>
      have hd : rowContentChars (c :: c2 :: rest2) ≠ [] := by
        show c.data ++ ',' :: rowContentChars (c2 :: rest2) ≠ []
        rcases hc : c.data with _ | _ <;> simp
      unfold parseCsvLine
      rcases hdd : rowContentChars (c :: c2 :: rest2) with _ | ⟨x, xs⟩
      · exact absurd hdd hd
      · rw [← hdd, splitCommas_rowContent (c :: c2 :: rest2) (by simp) hwf]
        simp [Function.comp, String_mk_data]
        rw [show (String.mk ∘ String.data) = id from funext String_mk_data, List.map_id]

theorem splitLinesAux_append (l1 l2 : List Char) (h : ∀ c ∈ l1, c ≠ '\n') :
    ∀ cur, splitLinesAux cur (l1 ++ '\n' :: l2) =
      (cur.reverse ++ l1) :: splitLinesAux [] l2 := by
  induction l1 with
  | nil =>
    intro cur
    show splitLinesAux cur ('\n' :: l2) = _
    simp [splitLinesAux]
  | cons c cs ih =>
    intro cur
    have hc : c ≠ '\n' := h c (by simp)
    show splitLinesAux cur (c :: (cs ++ '\n' :: l2)) = _
    rw [show splitLinesAux cur (c :: (cs ++ '\n' :: l2)) =
      if c = '\n' then cur.reverse :: splitLinesAux [] (cs ++ '\n' :: l2)
      else splitLinesAux (c :: cur) (cs ++ '\n' :: l2) from rfl, if_neg hc,
      ih (fun x hx => h x (by simp [hx])) (c :: cur)]
    simp

theorem no_nl_rowContent (row : List String)
    (hwf : ∀ c ∈ row, ∀ ch ∈ c.data, ch ≠ '\n') :
    ∀ ch ∈ rowContentChars row, ch ≠ '\n' := by
  induction row with
  | nil => intro ch hch; simp [rowContentChars] at hch
  | cons c rest ih =>
    intro ch hch
    cases rest with
    | nil => exact hwf c (by simp) ch hch
    | cons c2 rest2 =>
      simp only [rowContentChars] at hch
      rcases List.mem_append.mp hch with hch | hch
      · exact hwf c (by simp) ch hch
      · rcases List.mem_cons.mp hch with hch | hch
        · subst hch; decide
        · exact ih (fun x hx chx hchx => hwf x (by simp [hx]) chx hchx) ch hch

theorem parseCsvRows_tableChars (rows : Table)
    (hwf : ∀ row ∈ rows, row ≠ [""] ∧ ∀ c ∈ row, ∀ ch ∈ c.data, ch ≠ ',' ∧ ch ≠ '\n') :
    parseCsvRows (tableChars rows) = rows := by
  induction rows with
  | nil => rfl
  | cons row rest ih =>
    have hrow := hwf row (by simp)
    have hnl : ∀ ch ∈ rowContentChars row, ch ≠ '\n' :=
      no_nl_rowContent row (fun c hc chx hchx => (hrow.2 c hc chx hchx).2)
    show parseCsvRows (csvLineChars row ++ tableChars rest) = row :: rest
    rw [csvLineChars_eq, List.append_assoc]
    show parseCsvRows (rowContentChars row ++ '\n' :: tableChars rest) = _
    unfold parseCsvRows
    rw [splitLinesAux_append (rowContentChars row) (tableChars rest) hnl []]
    simp only [List.reverse_nil, List.nil_append, List.map_cons]
    rw [parseCsvLine_rowContent row hrow.1
      (fun c hc ch hch => (hrow.2 c hc ch hch).1)]
    have ih2 := ih (fun r hr => hwf r (by simp [hr]))
    unfold parseCsvRows at ih2
    rw [ih2]

/-! ### Lemmas: wellformed cells survive encoding -/

/-- The domain of the modelled (unquoted) row codec and map serializer:
printable ASCII cells free of the characters that Python's `csv` and `json`
writers would quote or escape. -/
def WfCell (c : String) : Prop :=
  ∀ ch ∈ c.data, 32 ≤ ch.toNat ∧ ch.toNat ≤ 126 ∧ ch ≠ '"' ∧ ch ≠ '\\' ∧ ch ≠ ','

theorem char_ne_of_toNat_ne {a b : Char} (h : a.toNat ≠ b.toNat) : a ≠ b :=
  fun he => h (congrArg Char.toNat he)

theorem wfCell_not_nl {c : String} (h : WfCell c) : ∀ ch ∈ c.data, ch ≠ ',' ∧ ch ≠ '\n' := by
  intro ch hch
  rcases h ch hch with ⟨h1, h2, -, -, h5⟩
  refine ⟨h5, char_ne_of_toNat_ne ?_⟩
  have hnl : ('\n' : Char).toNat = 10 := rfl
  omega

theorem wfCell_amp (pos : Nat) : WfCell (String.mk ('&' :: natDigits pos)) := by
  intro ch hch
  rcases List.mem_cons.mp hch with h | h
  · subst h
    refine ⟨by decide, by decide, by decide, by decide, by decide⟩
  · have hd := natDigits_all_digits pos ch h
    simp only [isDig, Bool.and_eq_true, decide_eq_true_eq] at hd
    have h1 : ('"' : Char).toNat = 34 := rfl
    have h2 : ('\\' : Char).toNat = 92 := rfl
    have h3 : (',' : Char).toNat = 44 := rfl
    exact ⟨by omega, by omega, char_ne_of_toNat_ne (by omega),
      char_ne_of_toNat_ne (by omega), char_ne_of_toNat_ne (by omega)⟩

theorem encodeCell_ok_cases {fmap : Nat → List String} {i : Nat} {c c2 : String}
    (h : encodeCell fmap i c = .ok c2) :
    (c.length ≤ 2 ∧ c2 = c) ∨ ∃ pos, c2 = String.mk ('&' :: natDigits pos) := by
  unfold encodeCell at h
  by_cases hlen : c.length ≤ 2
  · rw [if_pos hlen] at h
    injection h with h2
    exact Or.inl ⟨hlen, h2.symm⟩
  · rw [if_neg hlen] at h
    rcases hidx : listIndex (fmap i) c with _ | pos
    · simp only [hidx] at h
      exact Except.noConfusion h
    · simp only [hidx] at h
      injection h with h2
      exact Or.inr ⟨pos, h2.symm⟩

theorem forall₂_mem_right {α β : Type} {R : α → β → Prop} :
    ∀ {l1 : List α} {l2 : List β}, List.Forall₂ R l1 l2 → ∀ b ∈ l2, ∃ a ∈ l1, R a b := by
  intro l1 l2 h
  induction h with
  | nil => intro b hb; simp at hb
  | cons hr _ ih =>
    intro b hb
    rcases List.mem_cons.mp hb with hb | hb
    · subst hb
      exact ⟨_, by simp, hr⟩
    · rcases ih b hb with ⟨a, ha, har⟩
      exact ⟨a, by simp [ha], har⟩

theorem encodeRowAux_ok_inv {fmap : Nat → List String} : ∀ {cs : List String} {i : Nat}
    {cs2 : List String}, encodeRowAux fmap i cs = .ok cs2 →
    List.Forall₂ (fun c c2 => ∃ j, encodeCell fmap j c = .ok c2) cs cs2 := by
  intro cs
  induction cs with
  | nil =>
    intro i cs2 h
    injection h with h2
    rw [← h2]
    exact List.Forall₂.nil
  | cons c cs ih =>
    intro i cs2 h
    unfold encodeRowAux at h
    rcases he : encodeCell fmap i c with e | c2'
    · simp only [he] at h
      exact Except.noConfusion h
    · simp only [he] at h
      rcases hr : encodeRowAux fmap (i + 1) cs with e | cs2'
      · simp only [hr] at h
        exact Except.noConfusion h
      · simp only [hr] at h
        injection h with h2
        rw [← h2]
        exact List.Forall₂.cons ⟨i, he⟩ (ih hr)

theorem encodeTable_ok_inv {fmap : Nat → List String} : ∀ {rows rows2 : Table},
    encodeTable fmap rows = .ok rows2 →
    List.Forall₂ (fun row row2 => encodeRowAux fmap 0 row = .ok row2) rows rows2 := by
  intro rows
  induction rows with
  | nil =>
    intro rows2 h
    injection h with h2
    rw [← h2]
    exact List.Forall₂.nil
  | cons row rows ih =>
    intro rows2 h
    unfold encodeTable at h
    rcases he : encodeRow fmap row with e | row2'
    · simp only [he] at h
      exact Except.noConfusion h
    · simp only [he] at h
      rcases hr : encodeTable fmap rows with e | rows2'
      · simp only [hr] at h
        exact Except.noConfusion h
      · simp only [hr] at h
        injection h with h2
        rw [← h2]
        exact List.Forall₂.cons he (ih hr)

theorem amp_string_ne_empty (pos : Nat) : String.mk ('&' :: natDigits pos) ≠ "" := by
  intro h
  have h2 : ('&' :: natDigits pos) = ("" : String).data := congrArg String.data h
  exact List.noConfusion h2

/-- If encoding a row produces exactly `[""]`, the row was `[""]` already
(a coded reference is never empty, and short cells pass unchanged). -/
theorem encodeRow_ok_empty_inv {fmap : Nat → List String} {row : List String}
    (h : encodeRowAux fmap 0 row = .ok [""]) : row = [""] := by
  have hcells := encodeRowAux_ok_inv h
  cases hcells with
  | @cons a b l1 l2 h1 h2 =>
    cases h2
    rcases h1 with ⟨j, hcell⟩
    rcases encodeCell_ok_cases hcell with ⟨-, hceq⟩ | ⟨pos, hceq⟩
    · rw [← hceq]
    · exact absurd hceq.symm (amp_string_ne_empty pos)

/-- Every row of a successful encode of a wellformed table is itself in the
row codec's domain: cells stay printable (a coded reference is `&` plus
digits) and no row becomes the lone-empty-cell row. -/
theorem enc_csv_wf {fmap : Nat → List String} {rows rows2 : Table}
    (h : encodeTable fmap rows = .ok rows2)
    (hwf : ∀ row ∈ rows, row ≠ [""] ∧ ∀ c ∈ row, WfCell c) :
    ∀ row2 ∈ rows2, row2 ≠ [""] ∧ ∀ c2 ∈ row2, WfCell c2 := by
  have hinv := encodeTable_ok_inv h
  intro row2 hrow2
  rcases forall₂_mem_right hinv row2 hrow2 with ⟨row, hrow, hrel⟩
  have hcells := encodeRowAux_ok_inv hrel
  have hrwf := hwf row hrow
  constructor
  · intro hempty
    subst hempty
    exact hrwf.1 (encodeRow_ok_empty_inv hrel)
  · intro c2 hc2
    rcases forall₂_mem_right hcells c2 hc2 with ⟨c, hcmem, j, hcell⟩
    rcases encodeCell_ok_cases hcell with ⟨-, hceq⟩ | ⟨pos, hceq⟩
    · rw [hceq]
      exact hrwf.2 c hcmem
    · rw [hceq]
      exact wfCell_amp pos

/-! ### Lemmas: `json.loads` inverts `json.dump` on wellformed maps -/

theorem jsonEscChar_plain {c : Char} (h1 : 32 ≤ c.toNat) (h2 : c.toNat ≤ 126)
    (h3 : c ≠ '"') (h4 : c ≠ '\\') : jsonEscChar c = [c] := by
  unfold jsonEscChar
  have e1 : ('\n' : Char).toNat = 10 := rfl
  have e2 : ('\r' : Char).toNat = 13 := rfl
  have e3 : ('\t' : Char).toNat = 9 := rfl
  have h5 : c ≠ '\n' := char_ne_of_toNat_ne (by omega)
  have h6 : c ≠ '\r' := char_ne_of_toNat_ne (by omega)
  have h7 : c ≠ '\t' := char_ne_of_toNat_ne (by omega)
  rw [if_neg h3, if_neg h4, if_neg h5, if_neg h6, if_neg h7,
    if_neg (by omega), if_neg (by omega), if_neg (by omega), if_pos (by omega)]

theorem foldr_esc_plain (l : List Char)
    (h : ∀ ch ∈ l, 32 ≤ ch.toNat ∧ ch.toNat ≤ 126 ∧ ch ≠ '"' ∧ ch ≠ '\\') :
    l.foldr (fun c acc => jsonEscChar c ++ acc) ['"'] = l ++ ['"'] := by
  induction l with
  | nil => rfl
  | cons c cs ih =>
    rcases h c (by simp) with ⟨h1, h2, h3, h4⟩
    simp only [List.foldr_cons, jsonEscChar_plain h1 h2 h3 h4,
      ih (fun x hx => h x (by simp [hx]))]
    rfl

theorem jsonStrChars_plain {s : String} (h : WfCell s) :
    jsonStrChars s = '"' :: (s.data ++ ['"']) := by
  unfold jsonStrChars
  rw [foldr_esc_plain s.data (fun ch hch => by
    rcases h ch hch with ⟨a, b, c, d, -⟩
    exact ⟨a, b, c, d⟩)]

theorem jsonStrBody_plain (l : List Char) (h : ∀ ch ∈ l, ch ≠ '"' ∧ ch ≠ '\\')
    (rest : List Char) : jsonStrBody (l ++ '"' :: rest) = some (l, rest) := by
  induction l with
  | nil =>
    show jsonStrBody ('"' :: rest) = some ([], rest)
    rw [jsonStrBody.eq_def]
    simp
  | cons c cs ih =>
    rcases h c (by simp) with ⟨h1, h2⟩
    show jsonStrBody (c :: (cs ++ '"' :: rest)) = _
    rw [jsonStrBody.eq_def]
    simp [h1, h2, ih (fun x hx => h x (by simp [hx]))]

theorem skipJsonWs_not_ws {c : Char} (h : jsonWsB c = false) (l : List Char) :
    skipJsonWs (c :: l) = c :: l := by
  simp [skipJsonWs, List.dropWhile_cons, h]

theorem skipJsonWs_space (l : List Char) : skipJsonWs (' ' :: l) = skipJsonWs l := by
  simp [skipJsonWs, List.dropWhile_cons, jsonWsB]

theorem wf_char_not_jsonWs {ch : Char} (h1 : 32 ≤ ch.toNat) (h2 : ch.toNat ≤ 126)
    (hne : ch ≠ ' ') : jsonWsB ch = false := by
  unfold jsonWsB
  have e1 : ('\t' : Char).toNat = 9 := rfl
  have e2 : ('\n' : Char).toNat = 10 := rfl
  have e3 : ('\r' : Char).toNat = 13 := rfl
  simp only [Bool.or_eq_false_iff, decide_eq_false_iff_not]
  exact ⟨⟨⟨hne, char_ne_of_toNat_ne (by omega)⟩, char_ne_of_toNat_ne (by omega)⟩,
    char_ne_of_toNat_ne (by omega)⟩

theorem parseJsonStr_wf (s : String) (h : WfCell s) (rest : List Char) :
    parseJsonStr (jsonStrChars s ++ rest) = some (s.data, rest) := by
  rw [jsonStrChars_plain h]
  show parseJsonStr ('"' :: ((s.data ++ ['"']) ++ rest)) = _
  unfold parseJsonStr
  rw [skipJsonWs_not_ws (by decide)]
  simp only [if_pos rfl]
  rw [List.append_assoc]
  exact jsonStrBody_plain s.data
    (fun ch hch => by
      rcases h ch hch with ⟨-, -, c, d, -⟩
      exact ⟨c, d⟩) rest

theorem parseJsonStr_space (l : List Char) :
    parseJsonStr (' ' :: l) = parseJsonStr l := by
  unfold parseJsonStr
  rw [skipJsonWs_space]

theorem jsonListItemsAux_succ (fuel : Nat) (l : List Char) :
    jsonListItemsAux (fuel + 1) l =
      match parseJsonStr l with
      | none => none
      | some (s, rest) =>
        match skipJsonWs rest with
        | [] => none
        | c :: rest2 =>
          if c = ',' then
            match jsonListItemsAux fuel rest2 with
            | none => none
            | some (items, rest3) => some (s :: items, rest3)
          else if c = ']' then some ([s], rest2)
          else none := rfl

theorem items_parse : ∀ (l : List String), l ≠ [] → (∀ s ∈ l, WfCell s) →
    ∀ fuel, l.length ≤ fuel + 1 → ∀ rest,
    jsonListItemsAux (fuel + 1) (jsonItemsChars l ++ ']' :: rest) =
      some (l.map String.data, rest) := by
  intro l
  induction l with
  | nil => intro h; exact absurd rfl h
  | cons s l' ih =>
    intro _hne hwf fuel hfuel rest
    cases l' with
    | nil =>
      rw [jsonListItemsAux_succ]
      simp only [jsonItemsChars, parseJsonStr_wf s (hwf s (by simp)) (']' :: rest),
        skipJsonWs_not_ws (show jsonWsB ']' = false by decide)]
      simp
    | cons s2 l'' =>
      cases fuel with
      | zero =>
        exfalso
        simp only [List.length_cons] at hfuel
        omega
      | succ f =>
        rw [jsonListItemsAux_succ]
        have hassoc : jsonItemsChars (s :: s2 :: l'') ++ ']' :: rest =
            jsonStrChars s ++ (',' :: ' ' :: (jsonItemsChars (s2 :: l'') ++ ']' :: rest)) := by
          show (jsonStrChars s ++ ',' :: ' ' :: jsonItemsChars (s2 :: l'')) ++ ']' :: rest = _
          simp
        rw [hassoc]
        have hsp : jsonListItemsAux (f + 1)
            (' ' :: (jsonItemsChars (s2 :: l'') ++ ']' :: rest)) =
            jsonListItemsAux (f + 1) (jsonItemsChars (s2 :: l'') ++ ']' :: rest) := by
          rw [jsonListItemsAux_succ, jsonListItemsAux_succ, parseJsonStr_space]
        simp only [parseJsonStr_wf s (hwf s (by simp)),
          skipJsonWs_not_ws (show jsonWsB ',' = false by decide), if_pos rfl, hsp,
          ih (by simp) (fun x hx => hwf x (by simp [hx])) f
            (by simp only [List.length_cons] at hfuel ⊢; omega) rest]
        simp

theorem jsonItemsChars_length (l : List String) : l.length ≤ (jsonItemsChars l).length := by
  induction l with
  | nil => simp [jsonItemsChars]
  | cons s l' ih =>
    cases l' with
    | nil =>
      show (1 : Nat) ≤ (jsonStrChars s).length
      simp [jsonStrChars]
    | cons s2 l'' =>
      show (s :: s2 :: l'').length ≤
        (jsonStrChars s ++ ',' :: ' ' :: jsonItemsChars (s2 :: l'')).length
      have h1 : (s2 :: l'').length ≤ (jsonItemsChars (s2 :: l'')).length := ih
      simp only [List.length_cons, List.length_append] at h1 ⊢
      omega

theorem jsonItemsChars_head (s : String) (l' : List String) (hs : WfCell s) :
    ∃ X, jsonItemsChars (s :: l') = '"' :: X := by
  cases l' with
  | nil => exact ⟨s.data ++ ['"'], jsonStrChars_plain hs⟩
  | cons s2 l'' =>
    refine ⟨(s.data ++ ['"']) ++ ',' :: ' ' :: jsonItemsChars (s2 :: l''), ?_⟩
    show jsonStrChars s ++ ',' :: ' ' :: jsonItemsChars (s2 :: l'') = _
    rw [jsonStrChars_plain hs]
    simp

theorem parseJsonStrList_bracket_cons (c2 : Char) (cs2 : List Char)
    (h2 : jsonWsB c2 = false) :
    parseJsonStrList ('[' :: c2 :: cs2) =
      (if c2 = ']' then some ([], cs2)
       else jsonListItemsAux ((c2 :: cs2).length + 1) (c2 :: cs2)) := by
  unfold parseJsonStrList
  rw [skipJsonWs_not_ws (show jsonWsB '[' = false by decide)]
  show (if ('[' : Char) = '[' then
      match skipJsonWs (c2 :: cs2) with
      | [] => none
      | c3 :: rest =>
        if c3 = ']' then some ([], rest)
        else jsonListItemsAux ((c2 :: cs2).length + 1) (c2 :: cs2)
    else none) = _
  rw [if_pos rfl, skipJsonWs_not_ws h2]

theorem parseJsonStrList_wf (l : List String) (hwf : ∀ s ∈ l, WfCell s) (rest : List Char) :
    parseJsonStrList (jsonListChars l ++ rest) = some (l.map String.data, rest) := by
  cases l with
  | nil =>
    show parseJsonStrList ('[' :: ([] ++ [']']) ++ rest) = _
    have hin : ('[' :: ([] ++ [']'])) ++ rest = '[' :: ']' :: rest := by simp
    rw [hin, parseJsonStrList_bracket_cons ']' rest (by decide), if_pos rfl]
    rfl
  | cons s l' =>
    rcases jsonItemsChars_head s l' (hwf s (by simp)) with ⟨X, hX⟩
    show parseJsonStrList ('[' :: (jsonItemsChars (s :: l') ++ [']']) ++ rest) = _
    have hin : ('[' :: (jsonItemsChars (s :: l') ++ [']'])) ++ rest =
        '[' :: '"' :: (X ++ ']' :: rest) := by
      rw [show jsonItemsChars (s :: l') = '"' :: X from hX]
      simp
    rw [hin, parseJsonStrList_bracket_cons '"' (X ++ ']' :: rest) (by decide),
      if_neg (show ¬ (('"' : Char) = ']') by decide)]
    have hback : '"' :: (X ++ ']' :: rest) = jsonItemsChars (s :: l') ++ ']' :: rest := by
      rw [hX]
      simp
    rw [hback]
    refine items_parse (s :: l') (by simp) hwf (jsonItemsChars (s :: l') ++ ']' :: rest).length
      ?_ rest
    have hlen := jsonItemsChars_length (s :: l')
    simp only [List.length_append, List.length_cons] at hlen ⊢
    omega

theorem jsonMapItemsAux_succ (fuel : Nat) (l : List Char) :
    jsonMapItemsAux (fuel + 1) l =
      match parseJsonStr l with
      | none => none
      | some (key, rest) =>
        match skipJsonWs rest with
        | [] => none
        | c :: rest2 =>
          if c = ':' then
            match parseJsonStrList rest2 with
            | none => none
            | some (items, rest3) =>
              match skipJsonWs rest3 with
              | [] => none
              | c2 :: rest4 =>
                if c2 = ',' then
                  match jsonMapItemsAux fuel rest4 with
                  | none => none
                  | some (entries, rest5) => some ((key, items) :: entries, rest5)
                else if c2 = '\x7d' then some ([(key, items)], rest4)
                else none
          else none := rfl

theorem parseJsonStrList_space (X : List Char) :
    parseJsonStrList (' ' :: X) = parseJsonStrList X := by
  unfold parseJsonStrList
  rw [skipJsonWs_space]

theorem jsonMapItemsAux_space (f : Nat) (X : List Char) :
    jsonMapItemsAux (f + 1) (' ' :: X) = jsonMapItemsAux (f + 1) X := by
  rw [jsonMapItemsAux_succ, jsonMapItemsAux_succ, parseJsonStr_space]

theorem wfCell_natRepr (k : Nat) : WfCell (natRepr k) := by
  intro ch hch
  have hd : isDig ch = true := natDigits_all_digits k ch hch
  simp only [isDig, Bool.and_eq_true, decide_eq_true_eq] at hd
  have h1 : ('"' : Char).toNat = 34 := rfl
  have h2 : ('\\' : Char).toNat = 92 := rfl
  have h3 : (',' : Char).toNat = 44 := rfl
  exact ⟨by omega, by omega, char_ne_of_toNat_ne (by omega),
    char_ne_of_toNat_ne (by omega), char_ne_of_toNat_ne (by omega)⟩

theorem entries_parse (t : Table)
    (hwfm : ∀ k v, v ∈ get_conversion_map t k → WfCell v) :
    ∀ (keys : List Nat), keys ≠ [] →
    ∀ fuel, keys.length ≤ fuel + 1 → ∀ rest,
    jsonMapItemsAux (fuel + 1) (jsonEntriesChars t keys ++ '\x7d' :: rest) =
      some (keys.map
        (fun k => ((natRepr k).data, (get_conversion_map t k).map String.data)), rest) := by
  intro keys
  induction keys with
  | nil => intro h; exact absurd rfl h
  | cons k keys' ih =>
    intro _hne fuel hfuel rest
    cases keys' with
    | nil =>
      rw [jsonMapItemsAux_succ]
      have hassoc : jsonEntriesChars t [k] ++ '\x7d' :: rest =
          jsonStrChars (natRepr k) ++
            (':' :: ' ' :: (jsonListChars (get_conversion_map t k) ++ '\x7d' :: rest)) := by
        show jsonEntryChars t k ++ '\x7d' :: rest = _
        unfold jsonEntryChars
        simp
      rw [hassoc]
      simp only [parseJsonStr_wf (natRepr k) (wfCell_natRepr k),
        skipJsonWs_not_ws (show jsonWsB ':' = false by decide), if_pos rfl,
        parseJsonStrList_space,
        parseJsonStrList_wf (get_conversion_map t k) (fun v hv => hwfm k v hv)
          ('\x7d' :: rest),
        skipJsonWs_not_ws (show jsonWsB '\x7d' = false by decide)]
      simp
    | cons k2 keys'' =>
      cases fuel with
      | zero =>
        exfalso
        simp only [List.length_cons] at hfuel
        omega
      | succ f =>
        rw [jsonMapItemsAux_succ]
        have hassoc : jsonEntriesChars t (k :: k2 :: keys'') ++ '\x7d' :: rest =
            jsonStrChars (natRepr k) ++
              (':' :: ' ' :: (jsonListChars (get_conversion_map t k) ++
                ',' :: ' ' :: (jsonEntriesChars t (k2 :: keys'') ++ '\x7d' :: rest))) := by
          show (jsonEntryChars t k ++ ',' :: ' ' :: jsonEntriesChars t (k2 :: keys'')) ++
            '\x7d' :: rest = _
          unfold jsonEntryChars
          simp
        rw [hassoc]
        simp only [parseJsonStr_wf (natRepr k) (wfCell_natRepr k),
          skipJsonWs_not_ws (show jsonWsB ':' = false by decide), if_pos rfl,
          parseJsonStrList_space,
          parseJsonStrList_wf (get_conversion_map t k) (fun v hv => hwfm k v hv),
          skipJsonWs_not_ws (show jsonWsB ',' = false by decide),
          jsonMapItemsAux_space f,
          ih (by simp) f (by simp only [List.length_cons] at hfuel ⊢; omega) rest]
        simp

theorem jsonEntriesChars_head (t : Table) (k : Nat) (keys' : List Nat) :
    ∃ X, jsonEntriesChars t (k :: keys') = '"' :: X := by
  cases keys' with
  | nil =>
    refine ⟨((natRepr k).data ++ ['"']) ++
      ':' :: ' ' :: jsonListChars (get_conversion_map t k), ?_⟩
    show jsonEntryChars t k = _
    unfold jsonEntryChars
    rw [jsonStrChars_plain (wfCell_natRepr k)]
    simp
  | cons k2 keys'' =>
    refine ⟨(((natRepr k).data ++ ['"']) ++
      ':' :: ' ' :: jsonListChars (get_conversion_map t k)) ++
      ',' :: ' ' :: jsonEntriesChars t (k2 :: keys''), ?_⟩
    show jsonEntryChars t k ++ ',' :: ' ' :: jsonEntriesChars t (k2 :: keys'') = _
    unfold jsonEntryChars
    rw [jsonStrChars_plain (wfCell_natRepr k)]
    simp

theorem jsonEntriesChars_length (t : Table) (keys : List Nat) :
    keys.length ≤ (jsonEntriesChars t keys).length := by
  induction keys with
  | nil => simp [jsonEntriesChars]
  | cons k keys' ih =>
    cases keys' with
    | nil =>
      show (1 : Nat) ≤ (jsonEntryChars t k).length
      unfold jsonEntryChars
      rw [jsonStrChars_plain (wfCell_natRepr k)]
      simp
    | cons k2 keys'' =>
      show (k :: k2 :: keys'').length ≤
        (jsonEntryChars t k ++ ',' :: ' ' :: jsonEntriesChars t (k2 :: keys'')).length
      have h1 : (k2 :: keys'').length ≤ (jsonEntriesChars t (k2 :: keys'')).length := ih
      simp only [List.length_cons, List.length_append] at h1 ⊢
      omega

theorem jsonLoadsMap_brace_cons (c2 : Char) (cs2 : List Char) (h2 : jsonWsB c2 = false) :
    jsonLoadsMap (String.mk ('\x7b' :: c2 :: cs2)) =
      (match (if c2 = '\x7d' then some (([] : List (List Char × List (List Char))), cs2)
              else jsonMapItemsAux ((c2 :: cs2).length + 1) (c2 :: cs2)) with
       | none => none
       | some p =>
         if skipJsonWs p.2 = [] then
           some (p.1.map (fun e => (String.mk e.1, e.2.map String.mk)))
         else none) := by
  unfold jsonLoadsMap
  rw [show (String.mk ('\x7b' :: c2 :: cs2)).data = '\x7b' :: c2 :: cs2 from rfl,
    skipJsonWs_not_ws (show jsonWsB '\x7b' = false by decide)]
  show (if ('\x7b' : Char) = '\x7b' then
      (match (match skipJsonWs (c2 :: cs2) with
              | [] => none
              | c3 :: rest =>
                if c3 = '\x7d' then some (([] : List (List Char × List (List Char))), rest)
                else jsonMapItemsAux ((c2 :: cs2).length + 1) (c2 :: cs2)) with
       | none => none
       | some p =>
         if skipJsonWs p.2 = [] then
           some (p.1.map (fun e => (String.mk e.1, e.2.map String.mk)))
         else none)
    else none) = _
  rw [if_pos rfl, skipJsonWs_not_ws h2]

theorem jsonLoadsMap_dump (t : Table)
    (hwfm : ∀ k v, v ∈ get_conversion_map t k → WfCell v) :
    jsonLoadsMap (String.mk (jsonMapChars t ++ ['\n'])) =
      some ((colKeys t).map (fun k => (natRepr k, get_conversion_map t k))) := by
  rcases hkeys : colKeys t with _ | ⟨k, keys'⟩
  · have hin : jsonMapChars t ++ ['\n'] = '\x7b' :: '\x7d' :: ['\n'] := by
      show ('\x7b' :: (jsonEntriesChars t (colKeys t) ++ ['\x7d'])) ++ ['\n'] = _
      rw [hkeys]
      rfl
    rw [hin, jsonLoadsMap_brace_cons '\x7d' ['\n'] (by decide), if_pos rfl]
    have hsk : skipJsonWs ['\n'] = [] := by decide
    simp [hsk]
  · rcases jsonEntriesChars_head t k keys' with ⟨X, hX⟩
    have hin : jsonMapChars t ++ ['\n'] = '\x7b' :: '"' :: (X ++ '\x7d' :: ['\n']) := by
      show ('\x7b' :: (jsonEntriesChars t (colKeys t) ++ ['\x7d'])) ++ ['\n'] = _
      rw [hkeys, hX]
      simp
    rw [hin, jsonLoadsMap_brace_cons '"' (X ++ '\x7d' :: ['\n']) (by decide),
      if_neg (show ¬ (('"' : Char) = '\x7d') by decide)]
    have hback : ('"' : Char) :: (X ++ '\x7d' :: ['\n']) =
        jsonEntriesChars t (k :: keys') ++ '\x7d' :: ['\n'] := by
      rw [hX]
      simp
    rw [hback]
    have hfuel : (k :: keys').length ≤ (jsonEntriesChars t (k :: keys') ++ '\x7d' :: ['\n']).length + 1 := by
      have h1 := jsonEntriesChars_length t (k :: keys')
      simp only [List.length_append, List.length_cons] at h1 ⊢
      omega
    rw [entries_parse t hwfm (k :: keys') (by simp)
      (jsonEntriesChars t (k :: keys') ++ '\x7d' :: ['\n']).length hfuel ['\n']]
    have hsk : skipJsonWs ['\n'] = [] := by decide
    simp only [hsk, if_true]
    congr 1
    rw [List.map_map]
    refine List.map_congr_left ?_
    intro a ha
    simp only [Function.comp]
    rw [String_mk_data]
    congr 1
    rw [List.map_map, show (String.mk ∘ String.data) = id from funext String_mk_data,
      List.map_id]

/-! ### Lemmas: the dict keys and the decoder's key lookup -/

theorem natRepr_injective {a b : Nat} (h : natRepr a = natRepr b) : a = b := by
  have h2 : natDigits a = natDigits b := congrArg String.data h
  have h3 := digitsToNat_natDigits a
  rw [h2, digitsToNat_natDigits b] at h3
  exact h3.symm

theorem mem_rowColKeys (cs : List String) : ∀ acc j i,
    i ∈ rowColKeys acc j cs ↔
      i ∈ acc ∨ ∃ k c, cs[k]? = some c ∧ 2 < c.length ∧ i = j + k := by
  induction cs with
  | nil => simp [rowColKeys]
  | cons c cs ih =>
    intro acc j i
    rw [show rowColKeys acc j (c :: cs) =
      rowColKeys (if c.length ≤ 2 then acc
        else if acc.contains j then acc else acc ++ [j]) (j + 1) cs from rfl, ih]
    constructor
    · rintro (hmem | ⟨k, c', hk, hlen', heq⟩)
      · by_cases hlen : c.length ≤ 2
        · rw [if_pos hlen] at hmem
          exact Or.inl hmem
        · rw [if_neg hlen] at hmem
          by_cases hcj : acc.contains j
          · rw [if_pos hcj] at hmem
            exact Or.inl hmem
          · rw [if_neg hcj] at hmem
            rcases List.mem_append.mp hmem with hmem | hmem
            · exact Or.inl hmem
            · simp only [List.mem_singleton] at hmem
              subst hmem
              exact Or.inr ⟨0, c, by simp, by omega, by omega⟩
      · exact Or.inr ⟨k + 1, c', by simpa using hk, hlen', by omega⟩
    · rintro (hmem | ⟨k, c', hk, hlen', heq⟩)
      · left
        by_cases hlen : c.length ≤ 2
        · rw [if_pos hlen]
          exact hmem
        · rw [if_neg hlen]
          by_cases hcj : acc.contains j
          · rw [if_pos hcj]
            exact hmem
          · rw [if_neg hcj]
            exact List.mem_append.mpr (Or.inl hmem)
      · cases k with
        | zero =>
          simp only [List.getElem?_cons_zero, Option.some.injEq] at hk
          subst hk
          have hlen : ¬ (c.length ≤ 2) := by omega
          left
          rw [if_neg hlen]
          by_cases hcj : acc.contains j
          · rw [if_pos hcj]
            have hj : j ∈ acc := List.elem_iff.mp hcj
            have hij : i = j := by omega
            rw [hij]
            exact hj
          · rw [if_neg hcj]
            have hij : i = j := by omega
            rw [hij]
            exact List.mem_append.mpr (Or.inr (by simp))
        | succ k =>
          exact Or.inr ⟨k, c', by simpa using hk, hlen', by omega⟩

theorem mem_colKeysAux (t : Table) : ∀ acc i,
    i ∈ colKeysAux acc t ↔ i ∈ acc ∨ ∃ c, occursLong t i c := by
  induction t with
  | nil =>
    intro acc i
    simp only [colKeysAux]
    constructor
    · exact Or.inl
    · rintro (h | ⟨c, hocc⟩)
      · exact h
      · exact absurd hocc (occursLong_nil i c)
  | cons row rest ih =>
    intro acc i
    rw [show colKeysAux acc (row :: rest) = colKeysAux (rowColKeys acc 0 row) rest from rfl,
      ih, mem_rowColKeys]
    constructor
    · rintro ((h | ⟨k, c, hk, hlen, heq⟩) | ⟨c, hocc⟩)
      · exact Or.inl h
      · refine Or.inr ⟨c, ?_⟩
        rw [occursLong_cons]
        have hik : i = k := by omega
        subst hik
        exact Or.inl ⟨hk, hlen⟩
      · refine Or.inr ⟨c, ?_⟩
        rw [occursLong_cons]
        exact Or.inr hocc
    · rintro (h | ⟨c, hocc⟩)
      · exact Or.inl (Or.inl h)
      · rw [occursLong_cons] at hocc
        rcases hocc with ⟨hk, hlen⟩ | hocc
        · exact Or.inl (Or.inr ⟨i, c, hk, hlen, by omega⟩)
        · exact Or.inr ⟨c, hocc⟩

theorem colKeys_iff (t : Table) (i : Nat) : i ∈ colKeys t ↔ countColumn t i ≠ [] := by
  rw [colKeys, mem_colKeysAux]
  simp only [List.not_mem_nil, false_or]
  constructor
  · rintro ⟨c, hocc⟩
    exact countColumn_ne_nil_of_occursLong hocc
  · intro hne
    rcases hcc : countColumn t i with _ | ⟨p, rest⟩
    · exact absurd hcc hne
    · have hm : p.1 ∈ keysOf (countColumn t i) := by
        rw [hcc]
        simp [keysOf]
      exact ⟨p.1, (mem_keysOf_countColumn t i p.1).mp hm⟩

theorem find?_entries_mem (t : Table) (i : Nat) : ∀ (keys : List Nat), i ∈ keys →
    ((keys.map (fun k => (natRepr k, get_conversion_map t k))).find?
      (fun e => e.1 == natRepr i)) = some (natRepr i, get_conversion_map t i) := by
  intro keys
  induction keys with
  | nil => intro h; simp at h
  | cons k keys' ih =>
    intro hmem
    by_cases hk : k = i
    · subst hk
      simp only [List.map_cons]
      rw [List.find?_cons_of_pos _ (by simp)]
    · simp only [List.map_cons]
      rw [List.find?_cons_of_neg _ (by
        intro h
        exact hk (natRepr_injective (by simpa using h)))]
      refine ih ?_
      rcases List.mem_cons.mp hmem with h | h
      · exact absurd h.symm hk
      · exact h

theorem find?_entries_not_mem (t : Table) (i : Nat) : ∀ (keys : List Nat), i ∉ keys →
    ((keys.map (fun k => (natRepr k, get_conversion_map t k))).find?
      (fun e => e.1 == natRepr i)) = none := by
  intro keys
  induction keys with
  | nil => intro _; rfl
  | cons k keys' ih =>
    intro hmem
    have hk : k ≠ i := fun h => hmem (by simp [h])
    simp only [List.map_cons]
    rw [List.find?_cons_of_neg _ (by
      intro h
      exact hk (natRepr_injective (by simpa using h)))]
    exact ih (fun h => hmem (by simp [h]))

/-- The decoder's `conversion_map[str(index)]` lookup on the parsed json map
agrees with the in-memory conversion-map lookup. -/
theorem find?_entries (t : Table) (i : Nat) :
    (((colKeys t).map (fun k => (natRepr k, get_conversion_map t k))).find?
      (fun e => e.1 == natRepr i)).map (fun e => e.2) = conversionMapLookup t i := by
  by_cases hmem : i ∈ colKeys t
  · rw [find?_entries_mem t i (colKeys t) hmem]
    rw [conversionMapLookup_eq_some ((colKeys_iff t i).mp hmem)]
    rfl
  · rw [find?_entries_not_mem t i (colKeys t) hmem]
    have hcc : countColumn t i = [] := by
      by_contra hne
      exact hmem ((colKeys_iff t i).mpr hne)
    unfold conversionMapLookup
    rw [hcc]
    rfl

theorem no_nl_jsonStrChars {s : String} (h : WfCell s) : ∀ ch ∈ jsonStrChars s, ch ≠ '\n' := by
  rw [jsonStrChars_plain h]
  intro ch hch
  rcases List.mem_cons.mp hch with hch | hch
  · subst hch; decide
  · rcases List.mem_append.mp hch with hch | hch
    · rcases h ch hch with ⟨h1, -, -, -, -⟩
      have hv : ('\n' : Char).toNat = 10 := rfl
      exact char_ne_of_toNat_ne (by omega)
    · simp only [List.mem_singleton] at hch
      subst hch; decide

theorem no_nl_jsonItemsChars (l : List String) (h : ∀ s ∈ l, WfCell s) :
    ∀ ch ∈ jsonItemsChars l, ch ≠ '\n' := by
  induction l with
  | nil => intro ch hch; simp [jsonItemsChars] at hch
  | cons s l' ih =>
    intro ch hch
    cases l' with
    | nil => exact no_nl_jsonStrChars (h s (by simp)) ch hch
    | cons s2 l'' =>
      simp only [jsonItemsChars] at hch
      rcases List.mem_append.mp hch with hch | hch
      · exact no_nl_jsonStrChars (h s (by simp)) ch hch
      · rcases List.mem_cons.mp hch with hch | hch
        · subst hch; decide
        · rcases List.mem_cons.mp hch with hch | hch
          · subst hch; decide
          · exact ih (fun x hx => h x (by simp [hx])) ch hch

theorem no_nl_jsonEntriesChars (t : Table) (hwfm : ∀ k v, v ∈ get_conversion_map t k → WfCell v)
    (keys : List Nat) : ∀ ch ∈ jsonEntriesChars t keys, ch ≠ '\n' := by
  have hentry : ∀ k, ∀ ch ∈ jsonEntryChars t k, ch ≠ '\n' := by
    intro k ch hch
    unfold jsonEntryChars at hch
    rcases List.mem_append.mp hch with hch | hch
    · exact no_nl_jsonStrChars (wfCell_natRepr k) ch hch
    · rcases List.mem_cons.mp hch with hch | hch
      · subst hch; decide
      · rcases List.mem_cons.mp hch with hch | hch
        · subst hch; decide
        · unfold jsonListChars at hch
          rcases List.mem_cons.mp hch with hch | hch
          · subst hch; decide
          · rcases List.mem_append.mp hch with hch | hch
            · exact no_nl_jsonItemsChars _ (fun v hv => hwfm k v hv) ch hch
            · simp only [List.mem_singleton] at hch
              subst hch; decide
  induction keys with
  | nil => intro ch hch; simp [jsonEntriesChars] at hch
  | cons k keys' ih =>
    intro ch hch
    cases keys' with
    | nil => exact hentry k ch hch
    | cons k2 keys'' =>
      simp only [jsonEntriesChars] at hch
      rcases List.mem_append.mp hch with hch | hch
      · exact hentry k ch hch
      · rcases List.mem_cons.mp hch with hch | hch
        · subst hch; decide
        · rcases List.mem_cons.mp hch with hch | hch
          · subst hch; decide
          · exact ih ch hch

theorem no_nl_jsonMapChars (t : Table)
    (hwfm : ∀ k v, v ∈ get_conversion_map t k → WfCell v) :
    ∀ ch ∈ jsonMapChars t, ch ≠ '\n' := by
  intro ch hch
  unfold jsonMapChars at hch
  rcases List.mem_cons.mp hch with hch | hch
  · subst hch; decide
  · rcases List.mem_append.mp hch with hch | hch
    · exact no_nl_jsonEntriesChars t hwfm (colKeys t) ch hch
    · simp only [List.mem_singleton] at hch
      subst hch; decide

/-- C10 amended: `json.dump` emits no newline, so the empty `writerow('')`
record is exactly the line terminator of the map line; the decoder's
`readline` consumes the whole map line including it, the csv reader then
sees exactly the transformed rows — no empty row anywhere — and the
decompressed output equals the decoded transformed rows with no extra empty
row: for a wellformed table the file-level round trip returns `T`, not
`[] :: T`. -/
theorem c10_artifact_amended (t : Table)
    (hwf : ∀ row ∈ t, row ≠ [""] ∧ ∀ c ∈ row,
      WfCell c ∧ (c.length ≤ 2 → headIsAmp c = false)) :
    ∃ enc, encodeTable (get_conversion_map t) t = .ok enc ∧
      compress_csv_and_save t = .ok (String.mk (jsonMapChars t ++ '\n' :: tableChars enc)) ∧
      splitAtNl (jsonMapChars t ++ '\n' :: tableChars enc) =
        (jsonMapChars t ++ ['\n'], tableChars enc) ∧
      parseCsvRows (tableChars enc) = enc ∧
      compress_then_decompress t = .ok t := by
  have hwfm : ∀ k v, v ∈ get_conversion_map t k → WfCell v := by
    intro k v hv
    rcases (mem_get_conversion_map_iff t k v).mp hv with ⟨row, hrow, hcell, -⟩
    exact ((hwf row hrow).2 v (mem_of_getElem?_some hcell)).1
  have hG : ∀ row ∈ t, ∀ k c, row[k]? = some c →
      GoodCell (get_conversion_map t) (conversionMapLookup t) k c := by
    intro row hrow k c hk
    by_cases hlen : c.length ≤ 2
    · left
      exact ⟨hlen, ((hwf row hrow).2 c (mem_of_getElem?_some hk)).2 hlen⟩
    · right
      have hocc : occursLong t k c := ⟨row, hrow, hk, by omega⟩
      exact ⟨by omega, (mem_get_conversion_map_iff t k c).mpr hocc,
        conversionMapLookup_eq_some (countColumn_ne_nil_of_occursLong hocc)⟩
  rcases encode_decode_table _ _ t hG with ⟨enc, he, hd⟩
  have hcomp : compress_csv_and_save t =
      .ok (String.mk (jsonMapChars t ++ '\n' :: tableChars enc)) := by
    unfold compress_csv_and_save
    simp only [he]
    congr 1
    show String.mk (jsonMapChars t ++ csvLineChars [] ++ tableChars enc) = _
    congr 1
    show jsonMapChars t ++ ['\n'] ++ tableChars enc = _
    simp
  have hsplit : splitAtNl (jsonMapChars t ++ '\n' :: tableChars enc) =
      (jsonMapChars t ++ ['\n'], tableChars enc) :=
    splitAtNl_append _ _ (no_nl_jsonMapChars t hwfm)
  have hparse : parseCsvRows (tableChars enc) = enc := by
    apply parseCsvRows_tableChars
    have hencwf := enc_csv_wf he
      (fun row hrow => ⟨(hwf row hrow).1, fun c hc => ((hwf row hrow).2 c hc).1⟩)
    intro row2 hrow2
    rcases hencwf row2 hrow2 with ⟨hne, hcells⟩
    exact ⟨hne, fun c hc ch hch => wfCell_not_nl (hcells c hc) ch hch⟩
  refine ⟨enc, he, hcomp, hsplit, hparse, ?_⟩
  unfold compress_then_decompress
  simp only [hcomp]
  unfold decompress_file_and_save
  simp only [show (String.mk (jsonMapChars t ++ '\n' :: tableChars enc)).data =
    jsonMapChars t ++ '\n' :: tableChars enc from rfl, hsplit]
  simp only [jsonLoadsMap_dump t hwfm, hparse]
  have hfn : (fun i => (((colKeys t).map
      (fun k => (natRepr k, get_conversion_map t k))).find?
        (fun e => e.1 == natRepr i)).map (fun e => e.2)) = conversionMapLookup t :=
    funext (fun i => find?_entries t i)
  rw [hfn, hd]

/-- Witness for the amended C10 at the concrete table `[["aaa"]]`. -/
theorem c10_artifact_amended_witness :
    ∃ enc, encodeTable (get_conversion_map [["aaa"]]) [["aaa"]] = .ok enc ∧
      compress_csv_and_save [["aaa"]] =
        .ok (String.mk (jsonMapChars [["aaa"]] ++ '\n' :: tableChars enc)) ∧
      splitAtNl (jsonMapChars [["aaa"]] ++ '\n' :: tableChars enc) =
        (jsonMapChars [["aaa"]] ++ ['\n'], tableChars enc) ∧
      parseCsvRows (tableChars enc) = enc ∧
      compress_then_decompress [["aaa"]] = .ok [["aaa"]] :=
  c10_artifact_amended [["aaa"]] (by
    simp only [WfCell]
    decide)
